import Mathlib

set_option linter.unusedSectionVars false

/-!
Verification of the geospatial stop-deduplication engine of gtfstidy
(package `processors`): the KD-tree spatial index (`BuildKDTree`,
`Insert`, `Haversine`, `SearchRange`), the union-find forest
(`InitKey`, `MarkAsParent`, `FindSet`, `UnionSet`, `NumDisjointSets`),
the name normalizer (`normalize` / `ConsiderSame`) and the clustering
pass (`ExtendParentStops.Run`).

Go `float64` coordinates and distances are modelled as real numbers;
Go maps are modelled as functions into `Option` together with the
Go zero-value read (`m[k]` of a missing key yields the zero value of
the value type), plus a ghost `Finset` of registered keys used only as
recursion fuel for `FindSet`.
-/

namespace Processors

/-- Earth radius in kilometers (source constant `EarthRadiusKm`). -/
noncomputable def EarthRadiusKm : ℝ := 6371.0

/-- `Point` holds lat/lon and a generic payload of type `T` (source struct `Point[T]`). -/
structure Point (T : Type) where
  Lat : ℝ
  Lon : ℝ
  Data : T

/-- KD-tree node (source struct `Node[T]`); the `nil` constructor stands for the
nil `*Node[T]` pointer.  `Axis`: 0 = lat, 1 = lon. -/
inductive Node (T : Type) where
  | nil : Node T
  | node (Point : Point T) (Axis : ℕ) (Left Right : Node T) : Node T

/-- Coordinate of a point on a given axis (the `if axis == 0` selections in the source). -/
noncomputable def axisCoord {T : Type} (axis : ℕ) (p : Point T) : ℝ :=
  if axis = 0 then p.Lat else p.Lon

/-- Stable sort of a points slice by the coordinate of the current axis
(the `sort.SliceStable` call in the source `BuildKDTree`; Lean's `mergeSort`
is stable, and a stable sort on `≤` agrees with Go's stable sort on `<`). -/
noncomputable def sortByAxis {T : Type} (axis : ℕ) (pts : List (Point T)) : List (Point T) :=
  pts.mergeSort (fun a b => decide (axisCoord axis a ≤ axisCoord axis b))

/-- `BuildKDTree` builds a balanced KD-tree from a points slice: sort the slice
stably by the coordinate of the current axis, put the median point at the root
and recurse on the two halves at `depth+1` (source `BuildKDTree`). -/
noncomputable def BuildKDTree {T : Type} : List (Point T) → ℕ → Node T
  | [], _ => .nil
  | p :: ps, depth =>
    Node.node (((sortByAxis (depth % 2) (p :: ps)).drop ((p :: ps).length / 2)).headD p)
      (depth % 2)
      (BuildKDTree ((sortByAxis (depth % 2) (p :: ps)).take ((p :: ps).length / 2)) (depth + 1))
      (BuildKDTree ((sortByAxis (depth % 2) (p :: ps)).drop ((p :: ps).length / 2 + 1)) (depth + 1))
  termination_by l _ => l.length
  decreasing_by
    · simp only [List.length_take, sortByAxis, List.length_mergeSort, List.length_cons]
      omega
    · simp only [List.length_drop, sortByAxis, List.length_mergeSort, List.length_cons]
      omega

/-- `Insert` adds a new point to the tree by binary-search-tree descent on each
node's own splitting axis; a nil child is replaced by a leaf whose axis is
`depth % 2` (source `Insert`). -/
noncomputable def Insert {T : Type} : Node T → Point T → ℕ → Node T
  | .nil, point, depth => .node point (depth % 2) .nil .nil
  | .node rp ax l r, point, depth =>
    if axisCoord ax point < axisCoord ax rp then
      .node rp ax (Insert l point (depth + 1)) r
    else
      .node rp ax l (Insert r point (depth + 1))

/-- Go `math.Atan2` restricted to the real plane (no signed zeros / NaN):
quadrant-correct arctangent. -/
noncomputable def atan2 (y x : ℝ) : ℝ :=
  if 0 < x then Real.arctan (y / x)
  else if x < 0 then
    (if 0 ≤ y then Real.arctan (y / x) + Real.pi else Real.arctan (y / x) - Real.pi)
  else
    (if 0 < y then Real.pi / 2 else if y < 0 then -(Real.pi / 2) else 0)

/-- Haversine distance in km between two lat/lon points (source `Haversine`). -/
noncomputable def Haversine (lat1 lon1 lat2 lon2 : ℝ) : ℝ :=
  let dLat := (lat2 - lat1) * Real.pi / 180
  let dLon := (lon2 - lon1) * Real.pi / 180
  let a := Real.sin (dLat / 2) * Real.sin (dLat / 2) +
    Real.cos (lat1 * Real.pi / 180) * Real.cos (lat2 * Real.pi / 180) *
      (Real.sin (dLon / 2) * Real.sin (dLon / 2))
  let c := 2 * atan2 (Real.sqrt a) (Real.sqrt (1 - a))
  EarthRadiusKm * c

/-- Degree delta used for bounding-box pruning: latitude delta for `cd = 0`,
longitude delta scaled by the cosine of the query latitude for `cd = 1`
(source `coordDegrees`). -/
noncomputable def coordDegrees (radiusKm lat : ℝ) (cd : ℕ) : ℝ :=
  let rad := radiusKm / EarthRadiusKm * (180.0 / Real.pi)
  if cd = 0 then rad else rad / Real.cos (lat * Real.pi / 180.0)

/-- `SearchRange` collects the visited points within `radiusKm` of `query`,
pruning subtrees with the degree-delta bounding test (source `SearchRange`;
the Go version appends to `*results`, modelled by the returned list, in the
same order: node, then left subtree, then right subtree). -/
noncomputable def SearchRange {T : Type} : Node T → Point T → ℝ → ℕ → List (Point T)
  | .nil, _, _, _ => []
  | .node np _ l r, query, radiusKm, depth =>
    let cd := depth % 2
    let queryCoord := if cd = 0 then query.Lat else query.Lon
    let nodeCoord := if cd = 0 then np.Lat else np.Lon
    let delta := coordDegrees radiusKm query.Lat cd
    (if Haversine query.Lat query.Lon np.Lat np.Lon ≤ radiusKm then [np] else []) ++
    ((if queryCoord - delta ≤ nodeCoord then SearchRange l query radiusKm (depth + 1) else []) ++
     (if queryCoord + delta ≥ nodeCoord then SearchRange r query radiusKm (depth + 1) else []))

/-- All points stored in a tree. -/
def treePoints {T : Type} : Node T → List (Point T)
  | .nil => []
  | .node p _ l r => p :: (treePoints l ++ treePoints r)

/-- Number of nodes of a tree. -/
def treeSize {T : Type} : Node T → ℕ
  | .nil => 0
  | .node _ _ l r => treeSize l + treeSize r + 1

/-- KD ordering invariant at a given depth: the node's axis is `depth % 2`,
every point of the left subtree is `≤` the node on the node's axis, every
point of the right subtree is `≥` the node on the node's axis, and both
subtrees satisfy the invariant at `depth + 1`. -/
def KDInv {T : Type} : Node T → ℕ → Prop
  | .nil, _ => True
  | .node p ax l r, depth =>
    ax = depth % 2 ∧
    (∀ q ∈ treePoints l, axisCoord ax q ≤ axisCoord ax p) ∧
    (∀ q ∈ treePoints r, axisCoord ax p ≤ axisCoord ax q) ∧
    KDInv l (depth + 1) ∧ KDInv r (depth + 1)

/-! ### KD-tree invariant lemmas (claim C10) -/

theorem decide_le_trans {T : Type} (axis : ℕ) :
    ∀ a b c : Point T,
      decide (axisCoord axis a ≤ axisCoord axis b) = true →
      decide (axisCoord axis b ≤ axisCoord axis c) = true →
      decide (axisCoord axis a ≤ axisCoord axis c) = true := by
  intro a b c hab hbc
  simp only [decide_eq_true_eq] at *
  exact le_trans hab hbc

theorem decide_le_total {T : Type} (axis : ℕ) :
    ∀ a b : Point T,
      (decide (axisCoord axis a ≤ axisCoord axis b) ||
       decide (axisCoord axis b ≤ axisCoord axis a)) = true := by
  intro a b
  rcases le_total (axisCoord axis a) (axisCoord axis b) with h | h <;> simp [h]

theorem headD_drop_eq_getElem {α : Type} (l : List α) (m : ℕ) (hm : m < l.length) (d : α) :
    (l.drop m).headD d = l[m] := by
  rw [List.drop_eq_getElem_cons hm]
  rfl

theorem length_sortByAxis {T : Type} (axis : ℕ) (pts : List (Point T)) :
    (sortByAxis axis pts).length = pts.length := by
  simp [sortByAxis, List.length_mergeSort]

theorem perm_sortByAxis {T : Type} (axis : ℕ) (pts : List (Point T)) :
    (sortByAxis axis pts).Perm pts :=
  List.mergeSort_perm pts _

theorem pairwise_sortByAxis {T : Type} (axis : ℕ) (pts : List (Point T)) :
    List.Pairwise (fun a b => axisCoord axis a ≤ axisCoord axis b) (sortByAxis axis pts) := by
  have h := List.sorted_mergeSort (decide_le_trans (T := T) axis) (decide_le_total axis) pts
  exact h.imp (fun hab => of_decide_eq_true hab)

theorem treePoints_build_subset {T : Type} :
    ∀ (pts : List (Point T)) (depth : ℕ), ∀ q ∈ treePoints (BuildKDTree pts depth), q ∈ pts := by
  intro pts depth
  induction pts, depth using BuildKDTree.induct with
  | case1 d => intro q hq; simp [BuildKDTree, treePoints] at hq
  | case2 p ps depth ihl ihr =>
    intro q hq
    rw [BuildKDTree] at hq
    simp only [treePoints, List.mem_cons, List.mem_append] at hq
    have hperm := perm_sortByAxis (depth % 2) (p :: ps)
    have hm : (p :: ps).length / 2 < (sortByAxis (depth % 2) (p :: ps)).length := by
      rw [length_sortByAxis]; exact Nat.div_lt_self (by simp) (by norm_num)
    rcases hq with hq | hq | hq
    · subst hq
      rw [headD_drop_eq_getElem _ _ hm p]
      exact hperm.mem_iff.mp (List.getElem_mem hm)
    · exact hperm.mem_iff.mp (List.take_subset _ _ (ihl _ hq))
    · exact hperm.mem_iff.mp (List.drop_subset _ _ (ihr _ hq))

theorem kdinv_build {T : Type} :
    ∀ (pts : List (Point T)) (depth : ℕ), KDInv (BuildKDTree pts depth) depth := by
  intro pts depth
  induction pts, depth using BuildKDTree.induct with
  | case1 d => simp [BuildKDTree, KDInv]
  | case2 p ps depth ihl ihr =>
    rw [BuildKDTree]
    have hm : (p :: ps).length / 2 < (sortByAxis (depth % 2) (p :: ps)).length := by
      rw [length_sortByAxis]; exact Nat.div_lt_self (by simp) (by norm_num)
    have hpair := List.pairwise_iff_getElem.mp (pairwise_sortByAxis (depth % 2) (p :: ps))
    have hmid := headD_drop_eq_getElem (sortByAxis (depth % 2) (p :: ps)) ((p :: ps).length / 2) hm p
    refine ⟨rfl, ?_, ?_, ihl, ihr⟩
    · intro q hq
      have hq' := treePoints_build_subset _ _ q hq
      rw [List.mem_iff_getElem] at hq'
      obtain ⟨i, bound, hi⟩ := hq'
      have hilt : i < (p :: ps).length / 2 := by
        simp only [List.length_take, length_sortByAxis] at bound; omega
      have hbd : i < (sortByAxis (depth % 2) (p :: ps)).length := by
        rw [length_sortByAxis]
        rw [length_sortByAxis] at hm
        omega
      have hrel := hpair i ((p :: ps).length / 2) hbd hm hilt
      rw [hmid]
      have hq0 : (sortByAxis (depth % 2) (p :: ps))[i] = q := by
        rw [← hi]; exact (List.getElem_take _).symm
      rw [← hq0]
      exact hrel
    · intro q hq
      have hq' := treePoints_build_subset _ _ q hq
      rw [List.mem_iff_getElem] at hq'
      obtain ⟨i, bound, hi⟩ := hq'
      have hbd : (p :: ps).length / 2 + 1 + i < (sortByAxis (depth % 2) (p :: ps)).length := by
        simp only [List.length_drop, length_sortByAxis] at bound
        rw [length_sortByAxis]
        omega
      have hrel := hpair ((p :: ps).length / 2) ((p :: ps).length / 2 + 1 + i) hm hbd (by omega)
      rw [hmid]
      have hq0 : (sortByAxis (depth % 2) (p :: ps))[(p :: ps).length / 2 + 1 + i] = q := by
        rw [← hi]; exact (List.getElem_drop _).symm
      rw [← hq0]
      exact hrel

theorem treePoints_insert_subset {T : Type} :
    ∀ (t : Node T) (pnew : Point T) (depth : ℕ),
      ∀ q ∈ treePoints (Insert t pnew depth), q = pnew ∨ q ∈ treePoints t := by
  intro t
  induction t with
  | nil => intro pnew depth q hq; simp [Insert, treePoints] at hq; simp [hq]
  | node rp ax l r ihl ihr =>
    intro pnew depth q hq
    rw [Insert] at hq
    by_cases hcmp : axisCoord ax pnew < axisCoord ax rp
    · rw [if_pos hcmp] at hq
      simp only [treePoints, List.mem_cons, List.mem_append] at hq ⊢
      rcases hq with hq | hq | hq
      · exact Or.inr (Or.inl hq)
      · rcases ihl pnew (depth + 1) q hq with h | h
        · exact Or.inl h
        · exact Or.inr (Or.inr (Or.inl h))
      · exact Or.inr (Or.inr (Or.inr hq))
    · rw [if_neg hcmp] at hq
      simp only [treePoints, List.mem_cons, List.mem_append] at hq ⊢
      rcases hq with hq | hq | hq
      · exact Or.inr (Or.inl hq)
      · exact Or.inr (Or.inr (Or.inl hq))
      · rcases ihr pnew (depth + 1) q hq with h | h
        · exact Or.inl h
        · exact Or.inr (Or.inr (Or.inr h))

theorem kdinv_insert {T : Type} :
    ∀ (t : Node T) (pnew : Point T) (depth : ℕ),
      KDInv t depth → KDInv (Insert t pnew depth) depth := by
  intro t
  induction t with
  | nil => intro pnew depth _; simp [Insert, KDInv, treePoints]
  | node rp ax l r ihl ihr =>
    intro pnew depth hinv
    obtain ⟨haxis, hle, hge, hl, hr⟩ := hinv
    rw [Insert]
    by_cases hcmp : axisCoord ax pnew < axisCoord ax rp
    · rw [if_pos hcmp]
      refine ⟨haxis, ?_, hge, ihl pnew (depth + 1) hl, hr⟩
      intro q hq
      rcases treePoints_insert_subset l pnew (depth + 1) q hq with h | h
      · subst h; exact le_of_lt hcmp
      · exact hle q h
    · rw [if_neg hcmp]
      refine ⟨haxis, hle, ?_, hl, ihr pnew (depth + 1) hr⟩
      intro q hq
      rcases treePoints_insert_subset r pnew (depth + 1) q hq with h | h
      · subst h; exact le_of_not_lt hcmp
      · exact hge q h

theorem treeSize_insert {T : Type} :
    ∀ (t : Node T) (pnew : Point T) (depth : ℕ),
      treeSize (Insert t pnew depth) = treeSize t + 1 := by
  intro t
  induction t with
  | nil => intro pnew depth; simp [Insert, treeSize]
  | node rp ax l r ihl ihr =>
    intro pnew depth
    rw [Insert]
    by_cases hcmp : axisCoord ax pnew < axisCoord ax rp
    · rw [if_pos hcmp]; simp only [treeSize, ihl]; omega
    · rw [if_neg hcmp]; simp only [treeSize, ihr]; omega

/-- C10: every tree produced by `BuildKDTree`, and every tree obtained from an
invariant-satisfying tree by `Insert`, satisfies the KD ordering invariant
(axis = depth mod 2, left subtree `≤` node and right subtree `≥` node on the
node's axis); `Insert` adds exactly one node. -/
theorem c10_kdtree_invariant {T : Type} :
    (∀ (pts : List (Point T)) (depth : ℕ), KDInv (BuildKDTree pts depth) depth) ∧
    (∀ (t : Node T) (pnew : Point T) (depth : ℕ),
        KDInv t depth → KDInv (Insert t pnew depth) depth) ∧
    (∀ (t : Node T) (pnew : Point T) (depth : ℕ),
        treeSize (Insert t pnew depth) = treeSize t + 1) := by
  exact ⟨kdinv_build, kdinv_insert, treeSize_insert⟩

/-- Witness for C10: the preservation statement applied at the empty tree and a
concrete point. -/
theorem c10_kdtree_invariant_witness :
    KDInv (Insert (Node.nil (T := Unit)) ⟨0, 0, ()⟩ 0) 0 ∧
    treeSize (Insert (Node.nil (T := Unit)) ⟨0, 0, ()⟩ 0) = treeSize (Node.nil (T := Unit)) + 1 :=
  ⟨(c10_kdtree_invariant.2.1) Node.nil ⟨0, 0, ()⟩ 0 trivial,
   (c10_kdtree_invariant.2.2) Node.nil ⟨0, 0, ()⟩ 0⟩

/-! ### Range search (claim C1) -/

theorem searchRange_within_radius {T : Type} (t : Node T) (q : Point T) (r : ℝ) :
    ∀ (depth : ℕ), ∀ p ∈ SearchRange t q r depth, Haversine q.Lat q.Lon p.Lat p.Lon ≤ r := by
  induction t with
  | nil => intro depth p hp; simp [SearchRange] at hp
  | node np ax l rt ihl ihr =>
    intro depth p hp
    rw [SearchRange] at hp
    simp only [List.mem_append] at hp
    rcases hp with hp | hp | hp
    · split_ifs at hp with hcond
      · simp only [List.mem_singleton] at hp; subst hp; exact hcond
      · simp at hp
    · split_ifs at hp <;> first | exact ihl _ p hp | simp at hp
    · split_ifs at hp <;> first | exact ihr _ p hp | simp at hp

/-- Query point of the C1 counterexample: on the equator at longitude 0. -/
def cexQ : Point Unit := ⟨0, 0, ()⟩

/-- First inserted point of the C1 counterexample (becomes the lat-axis root). -/
def cexB : Point Unit := ⟨50, 100, ()⟩

/-- Point missed by the pruned search: at the north pole, stored with longitude 180. -/
def cexC : Point Unit := ⟨90, 180, ()⟩

/-- Tree of the C1 counterexample, built by a sequence of `Insert` calls. -/
noncomputable def cexTree : Node Unit := Insert (Insert (Insert .nil cexQ 0) cexB 0) cexC 0

/-- Radius of the C1 counterexample: a quarter of the Earth's circumference,
exactly the haversine distance from the equator to the pole. -/
noncomputable def cexRadius : ℝ := EarthRadiusKm * (Real.pi / 2)

theorem cexTree_eq :
    cexTree = Node.node cexQ 0 .nil (Node.node cexB 1 .nil (Node.node cexC 0 .nil .nil)) := by
  have h1 : Insert (Node.nil (T := Unit)) cexQ 0 = Node.node cexQ 0 .nil .nil := by
    simp [Insert]
  have h2 : Insert (Node.node cexQ 0 .nil .nil) cexB 0 =
      Node.node cexQ 0 .nil (Node.node cexB 1 .nil .nil) := by
    rw [Insert, if_neg (by norm_num [axisCoord, cexQ, cexB])]
    simp [Insert]
  have h3 : Insert (Node.node cexQ 0 .nil (Node.node cexB 1 .nil .nil)) cexC 0 =
      Node.node cexQ 0 .nil (Node.node cexB 1 .nil (Node.node cexC 0 .nil .nil)) := by
    rw [Insert, if_neg (by norm_num [axisCoord, cexQ, cexC])]
    rw [Insert, if_neg (by norm_num [axisCoord, cexB, cexC])]
    simp [Insert]
  rw [cexTree, h1, h2, h3]

theorem cex_coordDegrees_lat : coordDegrees cexRadius 0 0 = 90 := by
  have hpi := Real.pi_ne_zero
  simp only [cexRadius, coordDegrees, EarthRadiusKm, if_pos rfl]
  field_simp
  ring

theorem cex_coordDegrees_lon : coordDegrees cexRadius 0 1 = 90 := by
  have hpi := Real.pi_ne_zero
  have hz : (0 : ℝ) * Real.pi / 180.0 = 0 := by ring
  simp only [cexRadius, coordDegrees, EarthRadiusKm, hz, Real.cos_zero]
  norm_num
  field_simp
  ring

theorem cex_haversine_pole : Haversine 0 0 90 180 = cexRadius := by
  have h1 : ((90 : ℝ) - 0) * Real.pi / 180 / 2 = Real.pi / 4 := by ring
  have h2 : ((180 : ℝ) - 0) * Real.pi / 180 / 2 = Real.pi / 2 := by ring
  have h3 : (0 : ℝ) * Real.pi / 180 = 0 := by ring
  have h4 : (90 : ℝ) * Real.pi / 180 = Real.pi / 2 := by ring
  simp only [Haversine, h1, h2, h3, h4, Real.sin_pi_div_four, Real.cos_zero,
    Real.cos_pi_div_two, Real.sin_pi_div_two]
  have ha : Real.sqrt 2 / 2 * (Real.sqrt 2 / 2) + 1 * 0 * (1 * 1) = 1 / 2 := by
    have h2' : Real.sqrt 2 * Real.sqrt 2 = 2 := Real.mul_self_sqrt (by norm_num)
    nlinarith [h2']
  rw [ha]
  have hb : (1 : ℝ) - 1 / 2 = 1 / 2 := by norm_num
  rw [hb]
  have hpos : 0 < Real.sqrt (1 / 2) := Real.sqrt_pos.mpr (by norm_num)
  rw [atan2, if_pos hpos, div_self (ne_of_gt hpos), Real.arctan_one]
  rw [cexRadius]
  ring

/-- C1 counterexample: for the tree holding `{(0,0), (50,100), (90,180)}` built by
`Insert` calls, the query at `(0,0)` with radius `6371·π/2` (the exact distance to
the pole) misses the in-range pole point `(90,180)`: the longitude pruning delta is
90° < 180°, so the subtree holding it is pruned even though its haversine distance
equals the radius.  This refutes "SearchRange returns exactly the points within
radius r" and the superset-of-brute-force property. -/
theorem c1_searchrange_counterexample :
    0 ≤ cexRadius ∧
    cexC ∈ treePoints cexTree ∧
    Haversine cexQ.Lat cexQ.Lon cexC.Lat cexC.Lon ≤ cexRadius ∧
    cexC ∉ SearchRange cexTree cexQ cexRadius 0 := by
  refine ⟨?_, ?_, ?_, ?_⟩
  · unfold cexRadius EarthRadiusKm
    positivity
  · rw [cexTree_eq]; simp [treePoints]
  · show Haversine 0 0 90 180 ≤ cexRadius
    rw [cex_haversine_pole]
  · rw [cexTree_eq]
    intro hmem
    simp only [SearchRange] at hmem
    norm_num [cexQ, cexB, cexC, cex_coordDegrees_lat, cex_coordDegrees_lon] at hmem

/-- C1 amended: every point returned by `SearchRange` does lie within the haversine
radius (no false positives — each emitted point passes the explicit distance check),
but the bounding-box pruning can exclude true matches, so the result is a subset,
not a superset, of the brute-force haversine-filtered set. -/
theorem c1_searchrange_subset_of_within {T : Type} (t : Node T) (q : Point T) (r : ℝ)
    (depth : ℕ) (p : Point T) (hp : p ∈ SearchRange t q r depth) :
    Haversine q.Lat q.Lon p.Lat p.Lon ≤ r :=
  searchRange_within_radius t q r depth p hp

theorem haversine_self_zero : Haversine 0 0 0 0 = 0 := by
  have h1 : ((0 : ℝ) - 0) * Real.pi / 180 / 2 = 0 := by ring
  have h3 : (0 : ℝ) * Real.pi / 180 = 0 := by ring
  simp only [Haversine, h1, h3, Real.sin_zero, Real.cos_zero]
  have ha : (0 : ℝ) * 0 + 1 * 1 * (0 * 0) = 0 := by ring
  rw [ha]
  have hb : (1 : ℝ) - 0 = 1 := by norm_num
  rw [Real.sqrt_zero, hb, Real.sqrt_one]
  rw [atan2, if_pos (by norm_num : (0:ℝ) < 1)]
  norm_num [Real.arctan_zero]

/-- Witness for the amended C1: a concrete returned point is indeed within the
radius. -/
theorem c1_searchrange_subset_of_within_witness :
    Haversine 0 0 0 0 ≤ (1 : ℝ) := by
  have hc : Haversine (Point.mk (T := Unit) 0 0 ()).Lat (Point.mk (T := Unit) 0 0 ()).Lon
      (Point.mk (T := Unit) 0 0 ()).Lat (Point.mk (T := Unit) 0 0 ()).Lon ≤ (1 : ℝ) := by
    show Haversine 0 0 0 0 ≤ (1 : ℝ)
    rw [haversine_self_zero]; norm_num
  have hmem : (⟨0, 0, ()⟩ : Point Unit) ∈
      SearchRange (Node.node ⟨0, 0, ()⟩ 0 .nil .nil) ⟨0, 0, ()⟩ 1 0 := by
    rw [SearchRange, if_pos hc]
    exact List.mem_append_left _ (List.mem_singleton_self _)
  simpa using c1_searchrange_subset_of_within (Node.node ⟨0, 0, ()⟩ 0 .nil .nil) ⟨0, 0, ()⟩ 1 0 _ hmem

/-! ### Union-find forest (source type `UnionFind[T comparable]`)

Go maps are modelled as functions into `Option`; a read of a missing key
yields the Go zero value of the value type (`z : α` for the key maps, `0`
for `rank`/`size`, `false` for `isPreferredParent`).  The `keys` field is a
ghost copy of the map domain, used only as recursion fuel for the
path-compressing `FindSet` (the Go recursion terminates on the acyclicity
invariant; any fuel of at least `keys.card + 1` computes the same result). -/

structure UnionFind (α : Type) where
  parent : α → Option α
  rank : α → Option ℕ
  size : α → Option ℕ
  numSets : ℤ
  isPreferredParent : α → Option Bool
  keys : Finset α

namespace UnionFind

variable {α : Type} [DecidableEq α]

/-- Source `NewUnionFind`: empty maps, zero set count. -/
def NewUnionFind : UnionFind α :=
  ⟨fun _ => none, fun _ => none, fun _ => none, 0, fun _ => none, ∅⟩

/-- Go map read `uf.parent[i]` with zero value `z`. -/
def pread (z : α) (uf : UnionFind α) (i : α) : α := (uf.parent i).getD z

/-- Go map read `uf.rank[i]` (zero value 0). -/
def rread (uf : UnionFind α) (i : α) : ℕ := (uf.rank i).getD 0

/-- Go map read `uf.size[i]` (zero value 0). -/
def sread (uf : UnionFind α) (i : α) : ℕ := (uf.size i).getD 0

/-- Go map read `uf.isPreferredParent[i]` (zero value false). -/
def bread (uf : UnionFind α) (i : α) : Bool := (uf.isPreferredParent i).getD false

/-- Source `InitKey`: register a singleton set and increment the set count. -/
def InitKey (uf : UnionFind α) (k : α) : UnionFind α :=
  { uf with
    parent := Function.update uf.parent k (some k)
    rank := Function.update uf.rank k (some 0)
    size := Function.update uf.size k (some 1)
    numSets := uf.numSets + 1
    keys := insert k uf.keys }

/-- Source `MarkAsParent`: sticky preferred-root flag. -/
def MarkAsParent (uf : UnionFind α) (key : α) : UnionFind α :=
  { uf with isPreferredParent := Function.update uf.isPreferredParent key (some true) }

/-- Recursive worker of `FindSet` with explicit fuel: mirrors
`if uf.parent[i] != i { uf.parent[i] = uf.FindSet(uf.parent[i]) }; return uf.parent[i]`,
returning the root together with the path-compressed state. -/
def findAux (z : α) : ℕ → UnionFind α → α → α × UnionFind α
  | 0, uf, i => (i, uf)
  | fuel + 1, uf, i =>
    if pread z uf i = i then (i, uf)
    else
      ((findAux z fuel uf (pread z uf i)).1,
       { (findAux z fuel uf (pread z uf i)).2 with
         parent := Function.update (findAux z fuel uf (pread z uf i)).2.parent i
           (some (findAux z fuel uf (pread z uf i)).1) })

/-- Source `FindSet`: path-compressing root lookup. -/
def FindSet (z : α) (uf : UnionFind α) (i : α) : α × UnionFind α :=
  findAux z (uf.keys.card + 1) uf i

/-- Source `IsSameSet`: `uf.FindSet(i) == uf.FindSet(j)` with the state threaded
left to right. -/
def IsSameSet (z : α) (uf : UnionFind α) (i j : α) : Prop :=
  (FindSet z uf i).1 = (FindSet z (FindSet z uf i).2 j).1

/-- Merge two already-found roots: the branch structure of source `UnionSet`
after the two `FindSet` calls (no-op on equal roots; otherwise decrement the
set count and attach by preferred flag first, then by rank, growing the
surviving root's size and incrementing its rank on ties). -/
def linkRoots (uf : UnionFind α) (xRoot yRoot : α) : UnionFind α :=
  if xRoot = yRoot then uf
  else if bread uf xRoot = true ∧ bread uf yRoot = false then
    { uf with
      numSets := uf.numSets - 1
      parent := Function.update uf.parent yRoot (some xRoot)
      size := Function.update uf.size xRoot (some (sread uf xRoot + sread uf yRoot)) }
  else if bread uf yRoot = true ∧ bread uf xRoot = false then
    { uf with
      numSets := uf.numSets - 1
      parent := Function.update uf.parent xRoot (some yRoot)
      size := Function.update uf.size yRoot (some (sread uf yRoot + sread uf xRoot)) }
  else if rread uf yRoot < rread uf xRoot then
    { uf with
      numSets := uf.numSets - 1
      parent := Function.update uf.parent yRoot (some xRoot)
      size := Function.update uf.size xRoot (some (sread uf xRoot + sread uf yRoot)) }
  else
    { uf with
      numSets := uf.numSets - 1
      parent := Function.update uf.parent xRoot (some yRoot)
      size := Function.update uf.size yRoot (some (sread uf yRoot + sread uf xRoot))
      rank := if rread uf xRoot = rread uf yRoot then
          Function.update uf.rank yRoot (some (rread uf yRoot + 1))
        else uf.rank }

/-- Source `UnionSet`: find both roots (threading the compressed state) and link. -/
def UnionSet (z : α) (uf : UnionFind α) (x y : α) : UnionFind α :=
  linkRoots (FindSet z (FindSet z uf x).2 y).2
    (FindSet z uf x).1 (FindSet z (FindSet z uf x).2 y).1

/-- Source `NumDisjointSets`. -/
def NumDisjointSets (uf : UnionFind α) : ℤ := uf.numSets

/-- Source `SizeOfSet`: size of the root of `i`'s set. -/
def SizeOfSet (z : α) (uf : UnionFind α) (i : α) : ℕ :=
  sread (FindSet z uf i).2 (FindSet z uf i).1

/-- Pure root chasing with fuel: the value computed by `findAux`, without the
compression writes. -/
def rootP (z : α) : ℕ → UnionFind α → α → α
  | 0, _, i => i
  | fuel + 1, uf, i => if pread z uf i = i then i else rootP z fuel uf (pread z uf i)

/-- The root of `i` as computed with the canonical fuel. -/
def idealRoot (z : α) (uf : UnionFind α) (i : α) : α :=
  rootP z (uf.keys.card + 1) uf i

/-- One parent-chasing step. -/
def pstep (z : α) (uf : UnionFind α) : α → α := fun i => pread z uf i

/-- `r` is the root of `i`: reachable along parent links and a fixpoint. -/
def RootOf (z : α) (uf : UnionFind α) (i r : α) : Prop :=
  (∃ n : ℕ, (pstep z uf)^[n] i = r) ∧ pread z uf r = r

/-- Well-formedness: every registered key has a registered stored parent, and
root chasing from a registered key reaches a fixpoint within the fuel bound. -/
def WF (z : α) (uf : UnionFind α) : Prop :=
  (∀ i ∈ uf.keys, (uf.parent i).isSome = true ∧ pread z uf i ∈ uf.keys) ∧
  (∀ i ∈ uf.keys, pread z uf (idealRoot z uf i) = idealRoot z uf i)

/-! #### Basic facts about root chasing -/

theorem pread_update (z : α) (uf : UnionFind α) (i r t : α) :
    pread z { uf with parent := Function.update uf.parent i (some r) } t =
      if t = i then r else pread z uf t := by
  simp only [pread, Function.update_apply]
  split <;> simp

theorem rootOf_parent_ext (z : α) {uf₁ uf₂ : UnionFind α} (h : uf₁.parent = uf₂.parent)
    {j s : α} (hr : RootOf z uf₁ j s) : RootOf z uf₂ j s := by
  have hp : pread z uf₂ = pread z uf₁ := by funext t; simp [pread, h]
  obtain ⟨⟨n, hn⟩, hfix⟩ := hr
  refine ⟨⟨n, ?_⟩, ?_⟩
  · have : pstep z uf₂ = pstep z uf₁ := by funext t; simp [pstep, hp]
    rw [this]; exact hn
  · rw [hp]; exact hfix

theorem iterate_fix (z : α) (uf : UnionFind α) {r : α} (h : pread z uf r = r) :
    ∀ n, (pstep z uf)^[n] r = r := by
  intro n
  induction n with
  | zero => rfl
  | succ n ih => rw [Function.iterate_succ_apply', ih]; exact h

theorem rootP_of_fix (z : α) (uf : UnionFind α) {r : α} (h : pread z uf r = r) :
    ∀ fuel, rootP z fuel uf r = r := by
  intro fuel
  cases fuel with
  | zero => rfl
  | succ fuel => simp [rootP, h]

theorem rootP_exists_iterate (z : α) (uf : UnionFind α) :
    ∀ (fuel : ℕ) (i : α), ∃ k ≤ fuel, rootP z fuel uf i = (pstep z uf)^[k] i := by
  intro fuel
  induction fuel with
  | zero => intro i; exact ⟨0, le_refl _, rfl⟩
  | succ fuel ih =>
    intro i
    by_cases h : pread z uf i = i
    · exact ⟨0, Nat.zero_le _, by simp [rootP, h]⟩
    · obtain ⟨k, hk, hrk⟩ := ih (pread z uf i)
      refine ⟨k + 1, by omega, ?_⟩
      rw [rootP, if_neg h, hrk, Function.iterate_succ_apply]
      rfl

theorem rootP_of_chain (z : α) (uf : UnionFind α) :
    ∀ (m : ℕ) (i r : α) (fuel : ℕ), (pstep z uf)^[m] i = r → pread z uf r = r →
      m ≤ fuel → rootP z fuel uf i = r := by
  intro m
  induction m with
  | zero =>
    intro i r fuel hc hfix _
    have hir : i = r := by simpa using hc
    subst hir
    exact rootP_of_fix z uf hfix fuel
  | succ m ih =>
    intro i r fuel hc hfix hle
    by_cases h : pread z uf i = i
    · have : (pstep z uf)^[m + 1] i = i := iterate_fix z uf h (m + 1)
      rw [this] at hc
      subst hc
      exact rootP_of_fix z uf h fuel
    · obtain ⟨f, rfl⟩ : ∃ f, fuel = f + 1 := ⟨fuel - 1, by omega⟩
      rw [rootP, if_neg h]
      have hc' : (pstep z uf)^[m] (pstep z uf i) = r := by
        rw [← Function.iterate_succ_apply]
        exact hc
      exact ih (pread z uf i) r f hc' hfix (by omega)

theorem rootOf_unique (z : α) (uf : UnionFind α) {i r₁ r₂ : α}
    (h₁ : RootOf z uf i r₁) (h₂ : RootOf z uf i r₂) : r₁ = r₂ := by
  obtain ⟨⟨n₁, hn₁⟩, hf₁⟩ := h₁
  obtain ⟨⟨n₂, hn₂⟩, hf₂⟩ := h₂
  have key : ∀ (a b : ℕ) (ra rb : α), a ≤ b → (pstep z uf)^[a] i = ra →
      (pstep z uf)^[b] i = rb → pread z uf ra = ra → ra = rb := by
    intro a b ra rb hab ha hb hfix
    have : (pstep z uf)^[b] i = (pstep z uf)^[b - a] ((pstep z uf)^[a] i) := by
      rw [← Function.iterate_add_apply]
      congr 1
      omega
    rw [hb, ha, iterate_fix z uf hfix] at this
    exact this.symm
  rcases le_total n₁ n₂ with h | h
  · exact key n₁ n₂ r₁ r₂ h hn₁ hn₂ hf₁
  · exact (key n₂ n₁ r₂ r₁ h hn₂ hn₁ hf₂).symm

theorem iterate_mem_keys (z : α) (uf : UnionFind α)
    (hcl : ∀ k ∈ uf.keys, pread z uf k ∈ uf.keys) {i : α} (hi : i ∈ uf.keys) :
    ∀ n, (pstep z uf)^[n] i ∈ uf.keys := by
  intro n
  induction n with
  | zero => exact hi
  | succ n ih => rw [Function.iterate_succ_apply']; exact hcl _ ih

theorem rootOf_short_chain (z : α) (uf : UnionFind α)
    (hcl : ∀ k ∈ uf.keys, pread z uf k ∈ uf.keys) {i r : α} (hi : i ∈ uf.keys)
    (h : RootOf z uf i r) : ∃ m ≤ uf.keys.card, (pstep z uf)^[m] i = r := by
  obtain ⟨hex, hfix⟩ := h
  set m := Nat.find hex with hmdef
  have hm : (pstep z uf)^[m] i = r := Nat.find_spec hex
  by_cases hle : m ≤ uf.keys.card
  · exact ⟨m, hle, hm⟩
  · exfalso
    have hinj : Set.InjOn (fun a => (pstep z uf)^[a] i) ↑(Finset.range m) := by
      intro a ha b hb hab
      simp only [Finset.coe_range, Set.mem_Iio] at ha hb
      simp only at hab
      by_contra hne
      rcases Nat.lt_or_ge a b with hlt | hge
      · have hshort : (pstep z uf)^[m - (b - a)] i = r := by
          have h1 : m - (b - a) = (m - b) + a := by omega
          rw [h1, Function.iterate_add_apply, hab, ← Function.iterate_add_apply]
          have h2 : m - b + b = m := by omega
          rw [h2, hm]
        exact Nat.find_min hex (by omega) hshort
      · have hlt' : b < a := by omega
        have hshort : (pstep z uf)^[m - (a - b)] i = r := by
          have h1 : m - (a - b) = (m - a) + b := by omega
          rw [h1, Function.iterate_add_apply, ← hab, ← Function.iterate_add_apply]
          have h2 : m - a + a = m := by omega
          rw [h2, hm]
        exact Nat.find_min hex (by omega) hshort
    have hmaps : ∀ a ∈ Finset.range m, (pstep z uf)^[a] i ∈ uf.keys := by
      intro a _
      exact iterate_mem_keys z uf hcl hi a
    have := Finset.card_le_card_of_injOn _ hmaps hinj
    simp only [Finset.card_range] at this
    omega

theorem wf_rootOf (z : α) {uf : UnionFind α} (hwf : WF z uf) {i : α} (hi : i ∈ uf.keys) :
    RootOf z uf i (idealRoot z uf i) := by
  obtain ⟨k, _, hk⟩ := rootP_exists_iterate z uf (uf.keys.card + 1) i
  exact ⟨⟨k, hk.symm⟩, hwf.2 i hi⟩

theorem rootOf_idealRoot (z : α) {uf : UnionFind α}
    (hcl : ∀ k ∈ uf.keys, pread z uf k ∈ uf.keys) {i r : α} (hi : i ∈ uf.keys)
    (h : RootOf z uf i r) : idealRoot z uf i = r := by
  obtain ⟨m, hm, hchain⟩ := rootOf_short_chain z uf hcl hi h
  exact rootP_of_chain z uf m i r (uf.keys.card + 1) hchain h.2 (by omega)

/-! #### Path compression (`findAux`) -/

theorem findAux_fields (z : α) :
    ∀ (fuel : ℕ) (uf : UnionFind α) (i : α),
      (findAux z fuel uf i).2.rank = uf.rank ∧
      (findAux z fuel uf i).2.size = uf.size ∧
      (findAux z fuel uf i).2.numSets = uf.numSets ∧
      (findAux z fuel uf i).2.isPreferredParent = uf.isPreferredParent ∧
      (findAux z fuel uf i).2.keys = uf.keys := by
  intro fuel
  induction fuel with
  | zero => intro uf i; exact ⟨rfl, rfl, rfl, rfl, rfl⟩
  | succ fuel ih =>
    intro uf i
    rw [findAux]
    by_cases h : pread z uf i = i
    · rw [if_pos h]; exact ⟨rfl, rfl, rfl, rfl, rfl⟩
    · rw [if_neg h]
      exact ih uf (pread z uf i)

theorem findAux_fst (z : α) :
    ∀ (fuel : ℕ) (uf : UnionFind α) (i : α),
      (findAux z fuel uf i).1 = rootP z fuel uf i := by
  intro fuel
  induction fuel with
  | zero => intro uf i; rfl
  | succ fuel ih =>
    intro uf i
    rw [findAux, rootP]
    by_cases h : pread z uf i = i
    · rw [if_pos h, if_pos h]
    · rw [if_neg h, if_neg h]
      exact ih uf (pread z uf i)

theorem redirect_rootOf (z : α) (uf : UnionFind α) (i r : α) (hir : RootOf z uf i r) :
    ∀ j s, RootOf z uf j s →
      RootOf z { uf with parent := Function.update uf.parent i (some r) } j s := by
  intro j s hjs
  have hfix' : pread z { uf with parent := Function.update uf.parent i (some r) } s = s := by
    rw [pread_update]
    by_cases hsi : s = i
    · subst hsi
      have hss : RootOf z uf s s := ⟨⟨0, rfl⟩, hjs.2⟩
      have : s = r := rootOf_unique z uf hss hir
      simp [this]
    · rw [if_neg hsi]; exact hjs.2
  refine ⟨?_, hfix'⟩
  obtain ⟨⟨m, hm⟩, hsfix⟩ := hjs
  induction m generalizing j with
  | zero =>
    simp only [Function.iterate_zero_apply] at hm
    subst hm
    exact ⟨0, rfl⟩
  | succ m ih =>
    rw [Function.iterate_succ_apply] at hm
    by_cases hji : j = i
    · subst hji
      have hjs' : RootOf z uf j s := by
        refine ⟨⟨m + 1, ?_⟩, hsfix⟩
        rw [Function.iterate_succ_apply]
        exact hm
      have hsr : s = r := rootOf_unique z uf hjs' hir
      refine ⟨1, ?_⟩
      have : pstep z { uf with parent := Function.update uf.parent j (some r) } j = r := by
        show pread z _ j = r
        rw [pread_update]
        simp
      simp only [Function.iterate_one]
      rw [this, hsr]
    · obtain ⟨k, hk⟩ := ih (pstep z uf j) hm
      refine ⟨k + 1, ?_⟩
      rw [Function.iterate_succ_apply]
      have : pstep z { uf with parent := Function.update uf.parent i (some r) } j =
          pstep z uf j := by
        show pread z _ j = pread z uf j
        rw [pread_update, if_neg hji]
      rw [this]
      exact hk

theorem findAux_spec (z : α) :
    ∀ (n fuel : ℕ) (uf : UnionFind α) (i r : α),
      (pstep z uf)^[n] i = r → pread z uf r = r → n ≤ fuel →
      (findAux z fuel uf i).1 = r ∧
      (∀ j s, RootOf z uf j s → RootOf z (findAux z fuel uf i).2 j s) ∧
      (∀ j, (findAux z fuel uf i).2.parent j = uf.parent j ∨
            (findAux z fuel uf i).2.parent j = some r) := by
  intro n
  induction n with
  | zero =>
    intro fuel uf i r hc hfix _
    simp only [Function.iterate_zero_apply] at hc
    subst hc
    have hval : (findAux z fuel uf i).1 = i := by
      rw [findAux_fst]
      exact rootP_of_fix z uf hfix fuel
    have hstate : (findAux z fuel uf i).2 = uf := by
      cases fuel with
      | zero => rfl
      | succ fuel => rw [findAux, if_pos hfix]
    rw [hval, hstate]
    exact ⟨rfl, fun j s h => h, fun j => Or.inl rfl⟩
  | succ n ih =>
    intro fuel uf i r hc hfix hle
    by_cases h : pread z uf i = i
    · have : (pstep z uf)^[n + 1] i = i := iterate_fix z uf h (n + 1)
      rw [this] at hc
      subst hc
      have hval : (findAux z fuel uf i).1 = i := by
        rw [findAux_fst]
        exact rootP_of_fix z uf h fuel
      have hstate : (findAux z fuel uf i).2 = uf := by
        cases fuel with
        | zero => rfl
        | succ fuel => rw [findAux, if_pos h]
      rw [hval, hstate]
      exact ⟨rfl, fun j s hh => hh, fun j => Or.inl rfl⟩
    · obtain ⟨f, rfl⟩ : ∃ f, fuel = f + 1 := ⟨fuel - 1, by omega⟩
      have hc' : (pstep z uf)^[n] (pread z uf i) = r := by
        have := hc
        rw [Function.iterate_succ_apply] at this
        exact this
      obtain ⟨ih1, ih2, ih3⟩ := ih f uf (pread z uf i) r hc' hfix (by omega)
      have hir : RootOf z uf i r := ⟨⟨n + 1, hc⟩, hfix⟩
      have hir2 : RootOf z (findAux z f uf (pread z uf i)).2 i r := ih2 i r hir
      constructor
      · rw [findAux, if_neg h]
        exact ih1
      constructor
      · intro j s hjs
        rw [findAux, if_neg h]
        simp only
        rw [ih1]
        exact redirect_rootOf z (findAux z f uf (pread z uf i)).2 i r hir2 j s (ih2 j s hjs)
      · intro j
        rw [findAux, if_neg h]
        simp only [Function.update_apply]
        by_cases hji : j = i
        · rw [if_pos hji, ih1]
          exact Or.inr rfl
        · rw [if_neg hji]
          exact ih3 j

theorem FindSet_spec (z : α) {uf : UnionFind α} (hwf : WF z uf) {i : α} (hi : i ∈ uf.keys) :
    (FindSet z uf i).1 = idealRoot z uf i ∧
    WF z (FindSet z uf i).2 ∧
    (FindSet z uf i).2.rank = uf.rank ∧
    (FindSet z uf i).2.size = uf.size ∧
    (FindSet z uf i).2.numSets = uf.numSets ∧
    (FindSet z uf i).2.isPreferredParent = uf.isPreferredParent ∧
    (FindSet z uf i).2.keys = uf.keys ∧
    (∀ j s, RootOf z uf j s → RootOf z (FindSet z uf i).2 j s) ∧
    (∀ j ∈ uf.keys, idealRoot z (FindSet z uf i).2 j = idealRoot z uf j) := by
  unfold FindSet
  have hcl : ∀ k ∈ uf.keys, pread z uf k ∈ uf.keys := fun k hk => (hwf.1 k hk).2
  have hroot : RootOf z uf i (idealRoot z uf i) := wf_rootOf z hwf hi
  obtain ⟨m, hm, hchain⟩ := rootOf_short_chain z uf hcl hi hroot
  obtain ⟨h1, h2, h3⟩ :=
    findAux_spec z m (uf.keys.card + 1) uf i (idealRoot z uf i) hchain hroot.2 (by omega)
  obtain ⟨hr, hs, hn, hp, hk⟩ := findAux_fields z (uf.keys.card + 1) uf i
  have hrkeys : idealRoot z uf i ∈ uf.keys := by
    rw [← hchain]; exact iterate_mem_keys z uf hcl hi m
  have hcl' : ∀ k ∈ (findAux z (uf.keys.card + 1) uf i).2.keys, pread z (findAux z (uf.keys.card + 1) uf i).2 k ∈ (findAux z (uf.keys.card + 1) uf i).2.keys := by
    rw [hk]
    intro k hkk
    rcases h3 k with hh | hh
    · show ((findAux z (uf.keys.card + 1) uf i).2.parent k).getD z ∈ uf.keys
      rw [hh]
      exact (hwf.1 k hkk).2
    · show ((findAux z (uf.keys.card + 1) uf i).2.parent k).getD z ∈ uf.keys
      rw [hh]
      exact hrkeys
  have hsome' : ∀ k ∈ uf.keys, ((findAux z (uf.keys.card + 1) uf i).2.parent k).isSome = true := by
    intro k hkk
    rcases h3 k with hh | hh
    · rw [hh]; exact (hwf.1 k hkk).1
    · rw [hh]; rfl
  have hroots' : ∀ j ∈ uf.keys, idealRoot z (findAux z (uf.keys.card + 1) uf i).2 j = idealRoot z uf j := by
    intro j hj
    have hrj : RootOf z uf j (idealRoot z uf j) := wf_rootOf z hwf hj
    have hrj' : RootOf z (findAux z (uf.keys.card + 1) uf i).2 j (idealRoot z uf j) := h2 j _ hrj
    exact rootOf_idealRoot z (by rw [hk] at hcl' ⊢; exact hcl') (by rwa [hk]) hrj'
  refine ⟨h1, ⟨?_, ?_⟩, hr, hs, hn, hp, hk, h2, hroots'⟩
  · rw [hk]
    intro k hkk
    exact ⟨hsome' k hkk, by rw [hk] at hcl'; exact hcl' k hkk⟩
  · rw [hk]
    intro k hkk
    rw [hroots' k hkk]
    have hrk : RootOf z uf k (idealRoot z uf k) := wf_rootOf z hwf hkk
    exact (h2 k _ hrk).2

/-! #### Linking two roots (`UnionSet` after the finds) -/

/-- The root that survives a non-trivial union, per the source merge policy:
a uniquely preferred root wins; otherwise the higher-rank root; on an exact
tie `yRoot` wins (and its rank is incremented). -/
def survivor (uf : UnionFind α) (xRoot yRoot : α) : α :=
  if xRoot = yRoot then xRoot
  else if bread uf xRoot = true ∧ bread uf yRoot = false then xRoot
  else if bread uf yRoot = true ∧ bread uf xRoot = false then yRoot
  else if rread uf yRoot < rread uf xRoot then xRoot
  else yRoot

theorem link_transfer (z : α) (uf : UnionFind α) (w l : α) (hw : pread z uf w = w)
    (hl : pread z uf l = l) (hwl : w ≠ l) (uf₂ : UnionFind α)
    (hpar : uf₂.parent = Function.update uf.parent l (some w)) :
    ∀ j s, RootOf z uf j s → RootOf z uf₂ j (if s = l then w else s) := by
  have hpread : ∀ t, pread z uf₂ t = if t = l then w else pread z uf t := by
    intro t
    by_cases htl : t = l
    · simp [pread, hpar, Function.update_apply, htl]
    · simp [pread, hpar, Function.update_apply, htl]
  intro j s hjs
  obtain ⟨⟨m, hm⟩, hsfix⟩ := hjs
  constructor
  · induction m generalizing j with
    | zero =>
      simp only [Function.iterate_zero_apply] at hm
      subst hm
      by_cases hsl : j = l
      · refine ⟨1, ?_⟩
        simp only [Function.iterate_one, if_pos hsl]
        show pread z uf₂ j = w
        rw [hpread, if_pos hsl]
      · refine ⟨0, ?_⟩
        simp [hsl]
    | succ m ih =>
      rw [Function.iterate_succ_apply] at hm
      by_cases hjl : j = l
      · subst hjl
        have hstepj : pstep z uf j = j := hl
        rw [hstepj] at hm
        have hsj : s = j := by rw [← hm]; exact iterate_fix z uf hl m
        subst hsj
        refine ⟨1, ?_⟩
        simp only [Function.iterate_one, if_pos rfl]
        show pread z uf₂ s = w
        rw [hpread, if_pos rfl]
      · obtain ⟨k, hk⟩ := ih (pstep z uf j) hm
        refine ⟨k + 1, ?_⟩
        rw [Function.iterate_succ_apply]
        have : pstep z uf₂ j = pstep z uf j := by
          show pread z uf₂ j = pread z uf j
          rw [hpread, if_neg hjl]
        rw [this]
        exact hk
  · by_cases hsl : s = l
    · rw [if_pos hsl, hpread, if_neg hwl]
      exact hw
    · rw [if_neg hsl, hpread, if_neg hsl]
      exact hsfix

theorem linkRoots_eq (uf : UnionFind α) (r : α) : linkRoots uf r r = uf := by
  rw [linkRoots, if_pos rfl]

theorem linkRoots_spec (z : α) (uf : UnionFind α) (rx ry : α) (hne : rx ≠ ry)
    (hx : pread z uf rx = rx) (hy : pread z uf ry = ry) :
    (linkRoots uf rx ry).numSets = uf.numSets - 1 ∧
    (linkRoots uf rx ry).keys = uf.keys ∧
    (linkRoots uf rx ry).isPreferredParent = uf.isPreferredParent ∧
    (survivor uf rx ry = rx ∨ survivor uf rx ry = ry) ∧
    (∀ j, (linkRoots uf rx ry).parent j = uf.parent j ∨
          (linkRoots uf rx ry).parent j = some (survivor uf rx ry)) ∧
    (∀ j s, RootOf z uf j s →
        RootOf z (linkRoots uf rx ry) j
          (if s = rx ∨ s = ry then survivor uf rx ry else s)) := by
  have hconv : ∀ (w l : α), w = rx ∧ l = ry ∨ w = ry ∧ l = rx →
      ∀ s2 : α, (if s2 = l then w else s2) = (if s2 = rx ∨ s2 = ry then w else s2) := by
    intro w l hwl s2
    rcases hwl with ⟨hw, hl⟩ | ⟨hw, hl⟩ <;> rw [hw, hl]
    · by_cases h1 : s2 = ry
      · simp [h1]
      · by_cases h2 : s2 = rx
        · simp [h1, h2]
        · simp [h1, h2]
    · by_cases h1 : s2 = rx
      · simp [h1]
      · by_cases h2 : s2 = ry
        · simp [h1, h2]
        · simp [h1, h2]
  rw [linkRoots, if_neg hne]
  by_cases hc1 : bread uf rx = true ∧ bread uf ry = false
  · rw [if_pos hc1]
    have hsurv : survivor uf rx ry = rx := by rw [survivor, if_neg hne, if_pos hc1]
    refine ⟨rfl, rfl, rfl, Or.inl hsurv, ?_, ?_⟩
    · intro j
      simp only [Function.update_apply]
      by_cases hj : j = ry
      · rw [if_pos hj, hsurv]; exact Or.inr rfl
      · rw [if_neg hj]; exact Or.inl rfl
    · intro j s hjs
      rw [hsurv, ← hconv rx ry (Or.inl ⟨rfl, rfl⟩) s]
      exact link_transfer z uf rx ry hx hy hne _ rfl j s hjs
  · rw [if_neg hc1]
    by_cases hc2 : bread uf ry = true ∧ bread uf rx = false
    · rw [if_pos hc2]
      have hsurv : survivor uf rx ry = ry := by
        rw [survivor, if_neg hne, if_neg hc1, if_pos hc2]
      refine ⟨rfl, rfl, rfl, Or.inr hsurv, ?_, ?_⟩
      · intro j
        simp only [Function.update_apply]
        by_cases hj : j = rx
        · rw [if_pos hj, hsurv]; exact Or.inr rfl
        · rw [if_neg hj]; exact Or.inl rfl
      · intro j s hjs
        rw [hsurv, ← hconv ry rx (Or.inr ⟨rfl, rfl⟩) s]
        exact link_transfer z uf ry rx hy hx (Ne.symm hne) _ rfl j s hjs
    · rw [if_neg hc2]
      by_cases hc3 : rread uf ry < rread uf rx
      · rw [if_pos hc3]
        have hsurv : survivor uf rx ry = rx := by
          rw [survivor, if_neg hne, if_neg hc1, if_neg hc2, if_pos hc3]
        refine ⟨rfl, rfl, rfl, Or.inl hsurv, ?_, ?_⟩
        · intro j
          simp only [Function.update_apply]
          by_cases hj : j = ry
          · rw [if_pos hj, hsurv]; exact Or.inr rfl
          · rw [if_neg hj]; exact Or.inl rfl
        · intro j s hjs
          rw [hsurv, ← hconv rx ry (Or.inl ⟨rfl, rfl⟩) s]
          exact link_transfer z uf rx ry hx hy hne _ rfl j s hjs
      · rw [if_neg hc3]
        have hsurv : survivor uf rx ry = ry := by
          rw [survivor, if_neg hne, if_neg hc1, if_neg hc2, if_neg hc3]
        refine ⟨rfl, rfl, rfl, Or.inr hsurv, ?_, ?_⟩
        · intro j
          simp only [Function.update_apply]
          by_cases hj : j = rx
          · rw [if_pos hj, hsurv]; exact Or.inr rfl
          · rw [if_neg hj]; exact Or.inl rfl
        · intro j s hjs
          rw [hsurv, ← hconv ry rx (Or.inr ⟨rfl, rfl⟩) s]
          exact link_transfer z uf ry rx hy hx (Ne.symm hne) _ rfl j s hjs

theorem survivor_congr {uf₁ uf₂ : UnionFind α} (h1 : uf₁.rank = uf₂.rank)
    (h2 : uf₁.isPreferredParent = uf₂.isPreferredParent) (a b : α) :
    survivor uf₁ a b = survivor uf₂ a b := by
  simp [survivor, bread, rread, h1, h2]

theorem idealRoot_mem_keys (z : α) {uf : UnionFind α} (hwf : WF z uf) {i : α}
    (hi : i ∈ uf.keys) : idealRoot z uf i ∈ uf.keys := by
  obtain ⟨k, _, hk⟩ := rootP_exists_iterate z uf (uf.keys.card + 1) i
  show rootP z (uf.keys.card + 1) uf i ∈ uf.keys
  rw [hk]
  exact iterate_mem_keys z uf (fun j hj => (hwf.1 j hj).2) hi k

theorem linkRoots_wf_spec (z : α) {v : UnionFind α} (hv : WF z v) {rx ry : α}
    (hrx : rx ∈ v.keys) (hry : ry ∈ v.keys) (hne : rx ≠ ry)
    (hfx : pread z v rx = rx) (hfy : pread z v ry = ry) :
    WF z (linkRoots v rx ry) ∧
    (linkRoots v rx ry).numSets = v.numSets - 1 ∧
    (linkRoots v rx ry).keys = v.keys ∧
    (linkRoots v rx ry).isPreferredParent = v.isPreferredParent ∧
    (∀ j ∈ v.keys, idealRoot z (linkRoots v rx ry) j =
        if idealRoot z v j = rx ∨ idealRoot z v j = ry then survivor v rx ry
        else idealRoot z v j) := by
  obtain ⟨l1, l2, l3, l4, l5, l6⟩ := linkRoots_spec z v rx ry hne hfx hfy
  have hsurvmem : survivor v rx ry ∈ v.keys := by
    rcases l4 with h | h <;> rw [h]
    · exact hrx
    · exact hry
  have hcl : ∀ k ∈ (linkRoots v rx ry).keys,
      ((linkRoots v rx ry).parent k).isSome = true ∧
      pread z (linkRoots v rx ry) k ∈ (linkRoots v rx ry).keys := by
    intro k hk
    rw [l2] at hk
    rcases l5 k with h | h
    · constructor
      · rw [h]; exact (hv.1 k hk).1
      · show ((linkRoots v rx ry).parent k).getD z ∈ _
        rw [h, l2]
        exact (hv.1 k hk).2
    · constructor
      · rw [h]; rfl
      · show ((linkRoots v rx ry).parent k).getD z ∈ _
        rw [h, l2]
        exact hsurvmem
  have hroots : ∀ j ∈ v.keys, idealRoot z (linkRoots v rx ry) j =
      (if idealRoot z v j = rx ∨ idealRoot z v j = ry then survivor v rx ry
       else idealRoot z v j) ∧
      pread z (linkRoots v rx ry)
        (if idealRoot z v j = rx ∨ idealRoot z v j = ry then survivor v rx ry
         else idealRoot z v j) =
      (if idealRoot z v j = rx ∨ idealRoot z v j = ry then survivor v rx ry
       else idealRoot z v j) := by
    intro j hj
    have hrj : RootOf z v j (idealRoot z v j) := wf_rootOf z hv hj
    have ht := l6 j (idealRoot z v j) hrj
    have hcl2 : ∀ k ∈ (linkRoots v rx ry).keys,
        pread z (linkRoots v rx ry) k ∈ (linkRoots v rx ry).keys :=
      fun k hk => (hcl k hk).2
    refine ⟨?_, ht.2⟩
    exact rootOf_idealRoot z hcl2 (by rw [l2]; exact hj) ht
  refine ⟨⟨hcl, ?_⟩, l1, l2, l3, fun j hj => (hroots j hj).1⟩
  intro k hk
  rw [l2] at hk
  rw [(hroots k hk).1]
  exact (hroots k hk).2

theorem UnionSet_spec (z : α) {uf : UnionFind α} (hwf : WF z uf) {x y : α}
    (hx : x ∈ uf.keys) (hy : y ∈ uf.keys) :
    WF z (UnionSet z uf x y) ∧
    (UnionSet z uf x y).keys = uf.keys ∧
    (UnionSet z uf x y).isPreferredParent = uf.isPreferredParent ∧
    ((UnionSet z uf x y).numSets =
      if idealRoot z uf x = idealRoot z uf y then uf.numSets else uf.numSets - 1) ∧
    (∀ j ∈ uf.keys,
      idealRoot z (UnionSet z uf x y) j =
        if idealRoot z uf x = idealRoot z uf y then idealRoot z uf j
        else if idealRoot z uf j = idealRoot z uf x ∨ idealRoot z uf j = idealRoot z uf y
          then survivor uf (idealRoot z uf x) (idealRoot z uf y)
          else idealRoot z uf j) := by
  unfold UnionSet
  obtain ⟨e1, wf1, hr1, hs1, hn1, hp1, hk1, hpres1, hid1⟩ := FindSet_spec z hwf hx
  have hy1 : y ∈ (FindSet z uf x).2.keys := by rw [hk1]; exact hy
  obtain ⟨e2, wf2, hr2, hs2, hn2, hp2, hk2, hpres2, hid2⟩ := FindSet_spec z wf1 hy1
  have ey : (FindSet z (FindSet z uf x).2 y).1 = idealRoot z uf y := by
    rw [e2, hid1 y hy]
  have hk12 : (FindSet z (FindSet z uf x).2 y).2.keys = uf.keys := by rw [hk2, hk1]
  have hr12 : (FindSet z (FindSet z uf x).2 y).2.rank = uf.rank := by rw [hr2, hr1]
  have hn12 : (FindSet z (FindSet z uf x).2 y).2.numSets = uf.numSets := by rw [hn2, hn1]
  have hp12 : (FindSet z (FindSet z uf x).2 y).2.isPreferredParent = uf.isPreferredParent := by
    rw [hp2, hp1]
  have hid12 : ∀ j ∈ uf.keys,
      idealRoot z (FindSet z (FindSet z uf x).2 y).2 j = idealRoot z uf j := by
    intro j hj
    rw [hid2 j (by rw [hk1]; exact hj), hid1 j hj]
  have hpres12 : ∀ j s, RootOf z uf j s → RootOf z (FindSet z (FindSet z uf x).2 y).2 j s :=
    fun j s h => hpres2 j s (hpres1 j s h)
  by_cases heq : idealRoot z uf x = idealRoot z uf y
  · have hrxry : (FindSet z uf x).1 = (FindSet z (FindSet z uf x).2 y).1 := by
      rw [e1, ey, heq]
    rw [hrxry, linkRoots_eq]
    refine ⟨wf2, hk12, hp12, ?_, ?_⟩
    · rw [if_pos heq]; exact hn12
    · intro j hj
      rw [if_pos heq]
      exact hid12 j hj
  · have hne' : (FindSet z uf x).1 ≠ (FindSet z (FindSet z uf x).2 y).1 := by
      rw [e1, ey]; exact heq
    have hrxuf : RootOf z uf x (idealRoot z uf x) := wf_rootOf z hwf hx
    have hryuf : RootOf z uf y (idealRoot z uf y) := wf_rootOf z hwf hy
    have hfixx : pread z (FindSet z (FindSet z uf x).2 y).2 (FindSet z uf x).1 =
        (FindSet z uf x).1 := by
      rw [e1]; exact (hpres12 x _ hrxuf).2
    have hfixy : pread z (FindSet z (FindSet z uf x).2 y).2
        (FindSet z (FindSet z uf x).2 y).1 = (FindSet z (FindSet z uf x).2 y).1 := by
      rw [ey]; exact (hpres12 y _ hryuf).2
    have hrxmem : (FindSet z uf x).1 ∈ (FindSet z (FindSet z uf x).2 y).2.keys := by
      rw [hk12, e1]; exact idealRoot_mem_keys z hwf hx
    have hrymem : (FindSet z (FindSet z uf x).2 y).1 ∈
        (FindSet z (FindSet z uf x).2 y).2.keys := by
      rw [hk12, ey]; exact idealRoot_mem_keys z hwf hy
    obtain ⟨lwf, lnum, lkeys, lpref, lroots⟩ :=
      linkRoots_wf_spec z wf2 hrxmem hrymem hne' hfixx hfixy
    have hsurvc : survivor (FindSet z (FindSet z uf x).2 y).2 (FindSet z uf x).1
        (FindSet z (FindSet z uf x).2 y).1 =
        survivor uf (idealRoot z uf x) (idealRoot z uf y) := by
      rw [survivor_congr hr12 hp12, e1, ey]
    refine ⟨lwf, by rw [lkeys, hk12], by rw [lpref, hp12], ?_, ?_⟩
    · rw [if_neg heq, lnum, hn12]
    · intro j hj
      rw [if_neg heq, e1, ey]
      have := lroots j (by rw [hk12]; exact hj)
      rw [hid12 j hj, hsurvc, e1, ey] at this
      exact this

/-! #### Set-count frame effects (claim C9) -/

theorem linkRoots_numSets (uf : UnionFind α) (rx ry : α) :
    (linkRoots uf rx ry).numSets = if rx = ry then uf.numSets else uf.numSets - 1 := by
  rw [linkRoots]
  split_ifs <;> rfl

theorem findAux_numSets (z : α) (fuel : ℕ) (uf : UnionFind α) (i : α) :
    (findAux z fuel uf i).2.numSets = uf.numSets :=
  (findAux_fields z fuel uf i).2.2.1

/-- C9: a `FindSet` call never changes `NumDisjointSets`, and a `UnionSet` call
decreases it by exactly 1 when the two computed roots differ and leaves it
unchanged when they coincide. -/
theorem c9_numsets_frame (z : α) (uf : UnionFind α) (x y i : α) :
    NumDisjointSets (FindSet z uf i).2 = NumDisjointSets uf ∧
    NumDisjointSets (UnionSet z uf x y) =
      (if (FindSet z uf x).1 = (FindSet z (FindSet z uf x).2 y).1
       then NumDisjointSets uf
       else NumDisjointSets uf - 1) := by
  constructor
  · exact findAux_numSets z _ uf i
  · show (UnionSet z uf x y).numSets = _
    rw [UnionSet, linkRoots_numSets]
    have hA : (FindSet z uf x).2.numSets = uf.numSets := findAux_numSets z _ uf x
    have hB : (FindSet z (FindSet z uf x).2 y).2.numSets = (FindSet z uf x).2.numSets :=
      findAux_numSets z _ _ y
    rw [hB, hA]
    rfl

/-! #### Registration and sequences of unions (claims C2, C3, C8) -/

/-- A forest freshly created by `NewUnionFind` with a list of ids registered by
`InitKey` calls. -/
def buildUF (ids : List α) : UnionFind α := ids.foldl InitKey NewUnionFind

/-- A sequence of `UnionSet` calls applied in order. -/
def applyUnions (z : α) (uf : UnionFind α) (ops : List (α × α)) : UnionFind α :=
  ops.foldl (fun u p => UnionSet z u p.1 p.2) uf

/-- Reflexive-symmetric-transitive closure of a list of unioned pairs. -/
inductive Conn (ops : List (α × α)) : α → α → Prop
  | base {x y : α} : (x, y) ∈ ops → Conn ops x y
  | refl (x : α) : Conn ops x x
  | symm {x y : α} : Conn ops x y → Conn ops y x
  | trans {x y w : α} : Conn ops x y → Conn ops y w → Conn ops x w

theorem foldl_InitKey_parent (ids : List α) :
    ∀ (uf : UnionFind α) (j : α),
      (ids.foldl InitKey uf).parent j = if j ∈ ids then some j else uf.parent j := by
  induction ids with
  | nil => intro uf j; simp
  | cons a rest ih =>
    intro uf j
    show (rest.foldl InitKey (InitKey uf a)).parent j = _
    rw [ih]
    by_cases hj : j ∈ rest
    · simp [hj]
    · by_cases hja : j = a
      · simp [hj, hja, InitKey, Function.update_apply]
      · simp [hj, hja, InitKey, Function.update_apply]

theorem foldl_InitKey_keys (ids : List α) :
    ∀ (uf : UnionFind α), (ids.foldl InitKey uf).keys = uf.keys ∪ ids.toFinset := by
  induction ids with
  | nil => intro uf; simp
  | cons a rest ih =>
    intro uf
    show (rest.foldl InitKey (InitKey uf a)).keys = _
    rw [ih]
    show insert a uf.keys ∪ rest.toFinset = _
    ext t
    simp only [Finset.mem_union, Finset.mem_insert, List.toFinset_cons, List.mem_toFinset]
    constructor
    · rintro ((h | h) | h)
      · exact Or.inr (Or.inl h)
      · exact Or.inl h
      · exact Or.inr (Or.inr (by simpa using h))
    · rintro (h | h | h)
      · exact Or.inl (Or.inr h)
      · exact Or.inl (Or.inl h)
      · exact Or.inr (by simpa using h)

theorem foldl_InitKey_pref (ids : List α) :
    ∀ (uf : UnionFind α), (ids.foldl InitKey uf).isPreferredParent = uf.isPreferredParent := by
  induction ids with
  | nil => intro uf; rfl
  | cons a rest ih =>
    intro uf
    show (rest.foldl InitKey (InitKey uf a)).isPreferredParent = _
    rw [ih]
    rfl

theorem foldl_InitKey_numSets (ids : List α) :
    ∀ (uf : UnionFind α), (ids.foldl InitKey uf).numSets = uf.numSets + ids.length := by
  induction ids with
  | nil => intro uf; simp
  | cons a rest ih =>
    intro uf
    show (rest.foldl InitKey (InitKey uf a)).numSets = _
    rw [ih]
    show uf.numSets + 1 + (rest.length : ℤ) = _
    simp
    ring

theorem buildUF_parent (ids : List α) (j : α) :
    (buildUF ids).parent j = if j ∈ ids then some j else none := by
  rw [buildUF, foldl_InitKey_parent]
  rfl

theorem buildUF_keys (ids : List α) : (buildUF ids).keys = ids.toFinset := by
  rw [buildUF, foldl_InitKey_keys]
  simp [NewUnionFind]

theorem buildUF_pread (z : α) (ids : List α) {j : α} (hj : j ∈ ids) :
    pread z (buildUF ids) j = j := by
  simp [pread, buildUF_parent, hj]

theorem buildUF_idealRoot (z : α) (ids : List α) {j : α} (hj : j ∈ ids) :
    idealRoot z (buildUF ids) j = j :=
  rootP_of_fix z (buildUF ids) (buildUF_pread z ids hj) _

theorem buildUF_wf (z : α) (ids : List α) : WF z (buildUF ids) := by
  constructor
  · intro i hi
    rw [buildUF_keys] at hi
    have hi' : i ∈ ids := by simpa using hi
    constructor
    · rw [buildUF_parent, if_pos hi']; rfl
    · rw [buildUF_keys]
      have : pread z (buildUF ids) i = i := buildUF_pread z ids hi'
      rw [this]
      exact hi
  · intro i hi
    rw [buildUF_keys] at hi
    have hi' : i ∈ ids := by simpa using hi
    rw [buildUF_idealRoot z ids hi']
    exact buildUF_pread z ids hi'

theorem survivor_or (uf : UnionFind α) (a b : α) :
    survivor uf a b = a ∨ survivor uf a b = b := by
  rw [survivor]
  split_ifs <;> simp

theorem applyUnions_nil (z : α) (uf : UnionFind α) : applyUnions z uf [] = uf := rfl

theorem applyUnions_cons (z : α) (uf : UnionFind α) (x y : α) (rest : List (α × α)) :
    applyUnions z uf ((x, y) :: rest) = applyUnions z (UnionSet z uf x y) rest := rfl

theorem applyUnions_append (z : α) (uf : UnionFind α) (l₁ l₂ : List (α × α)) :
    applyUnions z uf (l₁ ++ l₂) = applyUnions z (applyUnions z uf l₁) l₂ :=
  List.foldl_append _ _ l₁ l₂

theorem applyUnions_wf (z : α) :
    ∀ (ops : List (α × α)) (uf : UnionFind α), WF z uf →
      (∀ p ∈ ops, p.1 ∈ uf.keys ∧ p.2 ∈ uf.keys) →
      WF z (applyUnions z uf ops) ∧ (applyUnions z uf ops).keys = uf.keys ∧
      (applyUnions z uf ops).isPreferredParent = uf.isPreferredParent := by
  intro ops
  induction ops with
  | nil => intro uf hwf _; exact ⟨hwf, rfl, rfl⟩
  | cons p rest ih =>
    intro uf hwf hmem
    obtain ⟨hx, hy⟩ := hmem p (List.mem_cons_self p rest)
    obtain ⟨uwf, ukeys, upref, _, _⟩ := UnionSet_spec z hwf hx hy
    rw [show applyUnions z uf (p :: rest) = applyUnions z (UnionSet z uf p.1 p.2) rest from rfl]
    obtain ⟨iwf, ikeys, ipref⟩ := ih (UnionSet z uf p.1 p.2) uwf
      (fun q hq => by rw [ukeys]; exact hmem q (List.mem_cons_of_mem p hq))
    exact ⟨iwf, by rw [ikeys, ukeys], by rw [ipref, upref]⟩

theorem applyUnions_mono (z : α) :
    ∀ (ops : List (α × α)) (uf : UnionFind α), WF z uf →
      (∀ p ∈ ops, p.1 ∈ uf.keys ∧ p.2 ∈ uf.keys) →
      ∀ a b, a ∈ uf.keys → b ∈ uf.keys → idealRoot z uf a = idealRoot z uf b →
        idealRoot z (applyUnions z uf ops) a = idealRoot z (applyUnions z uf ops) b := by
  intro ops
  induction ops with
  | nil => intro uf _ _ a b _ _ h; exact h
  | cons p rest ih =>
    intro uf hwf hmem a b ha hb hab
    obtain ⟨hx, hy⟩ := hmem p (List.mem_cons_self p rest)
    obtain ⟨uwf, ukeys, _, _, hdesc⟩ := UnionSet_spec z hwf hx hy
    rw [show applyUnions z uf (p :: rest) = applyUnions z (UnionSet z uf p.1 p.2) rest from rfl]
    apply ih (UnionSet z uf p.1 p.2) uwf
      (fun q hq => by rw [ukeys]; exact hmem q (List.mem_cons_of_mem p hq))
      a b (by rw [ukeys]; exact ha) (by rw [ukeys]; exact hb)
    rw [hdesc a ha, hdesc b hb, hab]

theorem unionSet_unites (z : α) {uf : UnionFind α} (hwf : WF z uf) {x y : α}
    (hx : x ∈ uf.keys) (hy : y ∈ uf.keys) :
    idealRoot z (UnionSet z uf x y) x = idealRoot z (UnionSet z uf x y) y := by
  obtain ⟨_, _, _, _, hdesc⟩ := UnionSet_spec z hwf hx hy
  rw [hdesc x hx, hdesc y hy]
  by_cases heq : idealRoot z uf x = idealRoot z uf y
  · rw [if_pos heq, if_pos heq, heq]
  · rw [if_neg heq, if_neg heq, if_pos (Or.inl rfl), if_pos (Or.inr rfl)]

theorem conn_implies_same_root (z : α) (ops : List (α × α)) (uf : UnionFind α)
    (hwf : WF z uf) (hmem : ∀ p ∈ ops, p.1 ∈ uf.keys ∧ p.2 ∈ uf.keys) :
    ∀ a b, Conn ops a b →
      a = b ∨ (a ∈ uf.keys ∧ b ∈ uf.keys ∧
        idealRoot z (applyUnions z uf ops) a = idealRoot z (applyUnions z uf ops) b) := by
  intro a b hconn
  induction hconn with
  | base hp =>
    rename_i x y
    obtain ⟨pre, post, hsplit⟩ := List.append_of_mem hp
    obtain ⟨hxk, hyk⟩ := hmem (x, y) hp
    right
    refine ⟨hxk, hyk, ?_⟩
    subst hsplit
    rw [applyUnions_append, applyUnions_cons]
    obtain ⟨pwf, pkeys, _⟩ := applyUnions_wf z pre uf hwf
      (fun q hq => hmem q (by simp [hq]))
    have hxk' : x ∈ (applyUnions z uf pre).keys := by rw [pkeys]; exact hxk
    have hyk' : y ∈ (applyUnions z uf pre).keys := by rw [pkeys]; exact hyk
    obtain ⟨uwf, ukeys, _, _, _⟩ := UnionSet_spec z pwf hxk' hyk'
    apply applyUnions_mono z post _ uwf
    · intro q hq
      rw [ukeys, pkeys]
      exact hmem q (by simp [hq])
    · rw [ukeys]; exact hxk'
    · rw [ukeys]; exact hyk'
    · exact unionSet_unites z pwf hxk' hyk'
  | refl x => exact Or.inl rfl
  | symm _ ih =>
    rcases ih with h | ⟨h1, h2, h3⟩
    · exact Or.inl h.symm
    · exact Or.inr ⟨h2, h1, h3.symm⟩
  | trans _ _ ih₁ ih₂ =>
    rcases ih₁ with h | ⟨h1, h2, h3⟩
    · rcases ih₂ with h' | ⟨h1', h2', h3'⟩
      · exact Or.inl (h.trans h')
      · exact Or.inr ⟨h ▸ h1', h2', h ▸ h3'⟩
    · rcases ih₂ with h' | ⟨h1', h2', h3'⟩
      · exact Or.inr ⟨h1, h' ▸ h2, h' ▸ h3⟩
      · exact Or.inr ⟨h1, h2', h3.trans h3'⟩

/-- Closure of a pair list together with a base relation `E`; used to peel
`UnionSet` calls off a sequence one at a time. -/
inductive ConnPlus (E : α → α → Prop) (ops : List (α × α)) : α → α → Prop
  | lift {x y : α} : E x y → ConnPlus E ops x y
  | base {x y : α} : (x, y) ∈ ops → ConnPlus E ops x y
  | refl (x : α) : ConnPlus E ops x x
  | symm {x y : α} : ConnPlus E ops x y → ConnPlus E ops y x
  | trans {x y w : α} : ConnPlus E ops x y → ConnPlus E ops y w → ConnPlus E ops x w

theorem connPlus_collapse {E : α → α → Prop} {ops ops' : List (α × α)}
    (hsub : ∀ p ∈ ops, p ∈ ops') :
    ∀ {a b : α}, ConnPlus (ConnPlus E ops') ops a b → ConnPlus E ops' a b := by
  intro a b h
  induction h with
  | lift h => exact h
  | base hp => exact ConnPlus.base (hsub _ hp)
  | refl x => exact ConnPlus.refl x
  | symm _ ih => exact ConnPlus.symm ih
  | trans _ _ ih₁ ih₂ => exact ConnPlus.trans ih₁ ih₂

theorem same_root_implies_connPlus (z : α) :
    ∀ (ops : List (α × α)) (uf : UnionFind α) (E : α → α → Prop), WF z uf →
      (∀ p ∈ ops, p.1 ∈ uf.keys ∧ p.2 ∈ uf.keys) →
      (∀ a b, a ∈ uf.keys → b ∈ uf.keys → idealRoot z uf a = idealRoot z uf b → E a b) →
      ∀ a b, a ∈ uf.keys → b ∈ uf.keys →
        idealRoot z (applyUnions z uf ops) a = idealRoot z (applyUnions z uf ops) b →
        ConnPlus E ops a b := by
  intro ops
  induction ops with
  | nil =>
    intro uf E _ _ hbase a b ha hb h
    exact ConnPlus.lift (hbase a b ha hb h)
  | cons p rest ih =>
    intro uf E hwf hmem hbase a b ha hb h
    obtain ⟨hx, hy⟩ := hmem p (List.mem_cons_self p rest)
    obtain ⟨uwf, ukeys, _, _, hdesc⟩ := UnionSet_spec z hwf hx hy
    rw [show applyUnions z uf (p :: rest) = applyUnions z (UnionSet z uf p.1 p.2) rest from rfl]
      at h
    have hpmem : (p.1, p.2) ∈ p :: rest := by
      rw [show (p.1, p.2) = p from rfl]
      exact List.mem_cons_self p rest
    have hbase' : ∀ a' b', a' ∈ (UnionSet z uf p.1 p.2).keys →
        b' ∈ (UnionSet z uf p.1 p.2).keys →
        idealRoot z (UnionSet z uf p.1 p.2) a' = idealRoot z (UnionSet z uf p.1 p.2) b' →
        ConnPlus E (p :: rest) a' b' := by
      intro a' b' ha' hb' hroo
      rw [ukeys] at ha' hb'
      rw [hdesc a' ha', hdesc b' hb'] at hroo
      by_cases heq : idealRoot z uf p.1 = idealRoot z uf p.2
      · rw [if_pos heq, if_pos heq] at hroo
        exact ConnPlus.lift (hbase a' b' ha' hb' hroo)
      · rw [if_neg heq, if_neg heq] at hroo
        by_cases ca : idealRoot z uf a' = idealRoot z uf p.1 ∨
            idealRoot z uf a' = idealRoot z uf p.2
        · by_cases cb : idealRoot z uf b' = idealRoot z uf p.1 ∨
              idealRoot z uf b' = idealRoot z uf p.2
          · have hxy : ConnPlus E (p :: rest) p.1 p.2 := ConnPlus.base hpmem
            rcases ca with hca | hca <;> rcases cb with hcb | hcb
            · exact ConnPlus.lift (hbase a' b' ha' hb' (hca.trans hcb.symm))
            · exact ConnPlus.trans (ConnPlus.lift (hbase a' p.1 ha' hx hca))
                (ConnPlus.trans hxy
                  (ConnPlus.symm (ConnPlus.lift (hbase b' p.2 hb' hy hcb))))
            · exact ConnPlus.trans (ConnPlus.lift (hbase a' p.2 ha' hy hca))
                (ConnPlus.trans (ConnPlus.symm hxy)
                  (ConnPlus.symm (ConnPlus.lift (hbase b' p.1 hb' hx hcb))))
            · exact ConnPlus.lift (hbase a' b' ha' hb' (hca.trans hcb.symm))
          · exfalso
            rw [if_pos ca, if_neg cb] at hroo
            rcases survivor_or uf (idealRoot z uf p.1) (idealRoot z uf p.2) with hs | hs
            · exact cb (Or.inl (hroo.symm.trans hs))
            · exact cb (Or.inr (hroo.symm.trans hs))
        · by_cases cb : idealRoot z uf b' = idealRoot z uf p.1 ∨
              idealRoot z uf b' = idealRoot z uf p.2
          · exfalso
            rw [if_neg ca, if_pos cb] at hroo
            rcases survivor_or uf (idealRoot z uf p.1) (idealRoot z uf p.2) with hs | hs
            · exact ca (Or.inl (hroo.trans hs))
            · exact ca (Or.inr (hroo.trans hs))
          · rw [if_neg ca, if_neg cb] at hroo
            exact ConnPlus.lift (hbase a' b' ha' hb' hroo)
    have hres := ih (UnionSet z uf p.1 p.2) (ConnPlus E (p :: rest)) uwf
      (fun q hq => by rw [ukeys]; exact hmem q (List.mem_cons_of_mem p hq))
      hbase' a b (by rw [ukeys]; exact ha) (by rw [ukeys]; exact hb) h
    exact connPlus_collapse (fun q hq => List.mem_cons_of_mem p hq) hres

theorem connPlus_eq_conn {ops : List (α × α)} :
    ∀ {a b : α}, ConnPlus Eq ops a b → Conn ops a b := by
  intro a b h
  induction h with
  | lift h => exact h ▸ Conn.refl _
  | base hp => exact Conn.base hp
  | refl x => exact Conn.refl x
  | symm _ ih => exact Conn.symm ih
  | trans _ _ ih₁ ih₂ => exact Conn.trans ih₁ ih₂

theorem isSameSet_iff_idealRoot (z : α) {uf : UnionFind α} (hwf : WF z uf) {a b : α}
    (ha : a ∈ uf.keys) (hb : b ∈ uf.keys) :
    IsSameSet z uf a b ↔ idealRoot z uf a = idealRoot z uf b := by
  obtain ⟨e1, wf1, _, _, _, _, hk1, _, hid1⟩ := FindSet_spec z hwf ha
  obtain ⟨e2, _, _, _, _, _, _, _, _⟩ := FindSet_spec z wf1 (show b ∈ (FindSet z uf a).2.keys by rw [hk1]; exact hb)
  rw [IsSameSet, e1, e2, hid1 b hb]

/-- C2: after registering a set of ids and performing any sequence of `UnionSet`
calls on registered ids, `FindSet(a) == FindSet(b)` (the source `IsSameSet`)
holds exactly when `a` and `b` are connected in the reflexive-symmetric-
transitive closure of the unioned pairs. -/
theorem c2_unionfind_connectivity (z : α) (ids : List α) (ops : List (α × α))
    (hops : ∀ p ∈ ops, p.1 ∈ ids ∧ p.2 ∈ ids) {a b : α} (ha : a ∈ ids) (hb : b ∈ ids) :
    IsSameSet z (applyUnions z (buildUF ids) ops) a b ↔ Conn ops a b := by
  have hwf0 : WF z (buildUF ids) := buildUF_wf z ids
  have hmem : ∀ p ∈ ops, p.1 ∈ (buildUF ids).keys ∧ p.2 ∈ (buildUF ids).keys := by
    intro p hp
    rw [buildUF_keys]
    exact ⟨List.mem_toFinset.mpr (hops p hp).1, List.mem_toFinset.mpr (hops p hp).2⟩
  have ha' : a ∈ (buildUF ids).keys := by rw [buildUF_keys]; exact List.mem_toFinset.mpr ha
  have hb' : b ∈ (buildUF ids).keys := by rw [buildUF_keys]; exact List.mem_toFinset.mpr hb
  obtain ⟨fwf, fkeys, _⟩ := applyUnions_wf z ops (buildUF ids) hwf0 hmem
  rw [isSameSet_iff_idealRoot z fwf (by rw [fkeys]; exact ha') (by rw [fkeys]; exact hb')]
  constructor
  · intro h
    apply connPlus_eq_conn
    apply same_root_implies_connPlus z ops (buildUF ids) Eq hwf0 hmem _ a b ha' hb' h
    intro a₀ b₀ ha₀ hb₀ hroot
    rw [buildUF_keys] at ha₀ hb₀
    rw [buildUF_idealRoot z ids (List.mem_toFinset.mp ha₀),
        buildUF_idealRoot z ids (List.mem_toFinset.mp hb₀)] at hroot
    exact hroot
  · intro h
    rcases conn_implies_same_root z ops (buildUF ids) hwf0 hmem a b h with h' | ⟨_, _, h'⟩
    · rw [h']
    · exact h'

/-- Witness for C2 at a concrete instance: ids `[1,2,3]`, one union `(1,2)`. -/
theorem c2_unionfind_connectivity_witness :
    IsSameSet 0 (applyUnions 0 (buildUF [1, 2, 3]) [(1, 2)]) 1 2 :=
  (c2_unionfind_connectivity 0 [1, 2, 3] [(1, 2)]
    (by intro p hp; simp at hp; simp [hp]) (by simp) (by simp)).mpr
    (Conn.base (by simp))

/-! #### Preferred-root behaviour (claim C3) -/

/-- Safety condition for a sequence of unions relative to a distinguished root
`r`: whenever a union touches `r`'s current set, the other side's root is not
itself preferred (the case the source merge policy resolves by rank). -/
def PrefSafe (z : α) (r : α) : UnionFind α → List (α × α) → Prop
  | _, [] => True
  | uf, (x, y) :: rest =>
    ((idealRoot z uf x = r → idealRoot z uf y = r ∨ bread uf (idealRoot z uf y) = false) ∧
     (idealRoot z uf y = r → idealRoot z uf x = r ∨ bread uf (idealRoot z uf x) = false)) ∧
    PrefSafe z r (UnionSet z uf x y) rest

theorem unionSet_keeps_pref_root (z : α) {uf : UnionFind α} (hwf : WF z uf) {x y r : α}
    (hx : x ∈ uf.keys) (hy : y ∈ uf.keys)
    (hbr : bread uf r = true)
    (hsafe1 : idealRoot z uf x = r → idealRoot z uf y = r ∨ bread uf (idealRoot z uf y) = false)
    (hsafe2 : idealRoot z uf y = r → idealRoot z uf x = r ∨ bread uf (idealRoot z uf x) = false) :
    ∀ j ∈ uf.keys, idealRoot z uf j = r → idealRoot z (UnionSet z uf x y) j = r := by
  intro j hj hjr
  obtain ⟨_, _, _, _, hdesc⟩ := UnionSet_spec z hwf hx hy
  rw [hdesc j hj, hjr]
  by_cases heq : idealRoot z uf x = idealRoot z uf y
  · rw [if_pos heq]
  · rw [if_neg heq]
    by_cases hc : r = idealRoot z uf x ∨ r = idealRoot z uf y
    · rw [if_pos hc]
      rcases hc with hc | hc
      · have hbx : bread uf (idealRoot z uf x) = true := by rw [← hc]; exact hbr
        rcases hsafe1 hc.symm with hyr | hby
        · exact absurd (hc.symm.trans hyr.symm) heq
        · rw [survivor, if_neg heq, if_pos ⟨hbx, hby⟩]
          exact hc.symm
      · have hby : bread uf (idealRoot z uf y) = true := by rw [← hc]; exact hbr
        rcases hsafe2 hc.symm with hxr | hbx
        · exact absurd (hxr.trans hc) heq
        · rw [survivor, if_neg heq, if_neg (by simp [hbx]), if_pos ⟨hby, hbx⟩]
          exact hc.symm
    · rw [if_neg hc]

theorem bread_congr {uf₁ uf₂ : UnionFind α}
    (h : uf₁.isPreferredParent = uf₂.isPreferredParent) (k : α) :
    bread uf₁ k = bread uf₂ k := by
  rw [bread, bread, h]

/-- C3 amended: once a root `r` is preferred, any sequence of unions in which
every union touching `r`'s set has a non-preferred root on the other side
keeps `r` as the root of all its members (both as the ideal root and as the
value returned by `FindSet`). -/
theorem c3_preferred_root_stable (z r : α) :
    ∀ (ops : List (α × α)) (uf : UnionFind α), WF z uf →
      (∀ p ∈ ops, p.1 ∈ uf.keys ∧ p.2 ∈ uf.keys) →
      r ∈ uf.keys → bread uf r = true → PrefSafe z r uf ops →
      ∀ j ∈ uf.keys, idealRoot z uf j = r →
        idealRoot z (applyUnions z uf ops) j = r ∧
        (FindSet z (applyUnions z uf ops) j).1 = r := by
  intro ops
  induction ops with
  | nil =>
    intro uf hwf _ hr hbr _ j hj hjr
    refine ⟨hjr, ?_⟩
    obtain ⟨e1, _, _, _, _, _, _, _, _⟩ := FindSet_spec z hwf hj
    rw [show applyUnions z uf [] = uf from rfl] at *
    rw [e1, hjr]
  | cons p rest ih =>
    intro uf hwf hmem hr hbr hsafe j hj hjr
    obtain ⟨hx, hy⟩ := hmem p (List.mem_cons_self p rest)
    obtain ⟨uwf, ukeys, upref, _, _⟩ := UnionSet_spec z hwf hx hy
    obtain ⟨⟨hs1, hs2⟩, hsrest⟩ := hsafe
    have hkeep := unionSet_keeps_pref_root z hwf hx hy hbr hs1 hs2
    rw [show applyUnions z uf (p :: rest) = applyUnions z (UnionSet z uf p.1 p.2) rest from rfl]
    apply ih (UnionSet z uf p.1 p.2) uwf
      (fun q hq => by rw [ukeys]; exact hmem q (List.mem_cons_of_mem p hq))
      (by rw [ukeys]; exact hr)
      (by rw [bread_congr upref]; exact hbr)
      hsrest j (by rw [ukeys]; exact hj)
      (hkeep j hj hjr)

/-- Witness for C3: ids `[1,2]`, root 1 marked preferred, union `(1,2)`:
1 survives as the root after the union. -/
theorem c3_preferred_root_stable_witness :
    idealRoot 0 (applyUnions 0 (MarkAsParent (buildUF [1, 2]) 1) [(1, 2)]) 1 = 1 ∧
    (FindSet 0 (applyUnions 0 (MarkAsParent (buildUF [1, 2]) 1) [(1, 2)]) 1).1 = 1 :=
  c3_preferred_root_stable 0 1 [(1, 2)] (MarkAsParent (buildUF [1, 2]) 1)
    (by unfold WF; decide)
    (by intro p hp; simp at hp; rw [hp]; exact ⟨by decide, by decide⟩)
    (by decide) (by decide)
    ⟨⟨by decide, by decide⟩, trivial⟩
    1 (by decide) (by decide)

/-- C3 counterexample: with both roots marked preferred, the rank rule applies
and the earlier-marked root 1 is attached under 2 — `MarkAsParent` on a root
does not guarantee it survives every subsequent union involving its set. -/
theorem c3_counterexample :
    bread (MarkAsParent (MarkAsParent (buildUF [1, 2]) 1) 2 : UnionFind ℕ) 1 = true ∧
    idealRoot 0 (MarkAsParent (MarkAsParent (buildUF [1, 2]) 1) 2 : UnionFind ℕ) 1 = 1 ∧
    (FindSet 0 (UnionSet 0 (MarkAsParent (MarkAsParent (buildUF [1, 2]) 1) 2) 1 2) 1).1 = 2 := by
  refine ⟨by decide, by decide, by decide⟩

/-! #### `FindSet` on registered and unregistered ids (claim C8) -/

/-- C8 amended: `FindSet` never fails.  For a registered id it returns that id's
root (a parent-map fixpoint).  For an id absent from the parent map it silently
returns the result of chasing from the zero value of the key type — the zero
value itself when that is also unregistered — because a Go map read of a
missing key yields the zero value instead of failing. -/
theorem c8_findset_total (z : α) (uf : UnionFind α) :
    (WF z uf → ∀ i ∈ uf.keys,
      (FindSet z uf i).1 = idealRoot z uf i ∧
      pread z uf (idealRoot z uf i) = idealRoot z uf i) ∧
    (∀ i, uf.parent i = none → uf.parent z = none → (FindSet z uf i).1 = z) := by
  constructor
  · intro hwf i hi
    obtain ⟨e1, _, _, _, _, _, _, _, _⟩ := FindSet_spec z hwf hi
    exact ⟨e1, hwf.2 i hi⟩
  · intro i hpi hpz
    have hz : pread z uf z = z := by simp [pread, hpz]
    by_cases hiz : i = z
    · have hpri : pread z uf i = i := by rw [hiz]; simp [pread, hpz]
      show (findAux z (uf.keys.card + 1) uf i).1 = z
      rw [findAux, if_pos hpri]
      exact hiz
    · show (findAux z (uf.keys.card + 1) uf i).1 = z
      have hpri : pread z uf i = z := by simp [pread, hpi]
      rw [findAux, if_neg (by rw [hpri]; exact fun h => hiz h.symm)]
      simp only
      rw [findAux_fst, hpri]
      exact rootP_of_fix z uf hz _

/-- Witness for C8: at a concrete two-id forest, `FindSet` of a registered id
returns its root, and `FindSet` of the unregistered id 5 silently returns the
zero value 0. -/
theorem c8_findset_total_witness :
    (FindSet 0 (buildUF [1, 2]) 1).1 = idealRoot 0 (buildUF ([1, 2] : List ℕ)) 1 ∧
    (FindSet 0 (buildUF ([1, 2] : List ℕ)) 5).1 = 0 :=
  ⟨((c8_findset_total 0 (buildUF [1, 2])).1 (by unfold WF; decide) 1 (by decide)).1,
   (c8_findset_total 0 (buildUF [1, 2])).2 5 (by decide) (by decide)⟩

/-- C8 counterexample: a lookup of the unregistered id 5 is not a fatal error:
the call terminates normally and silently returns the zero value of the key
type (Go map reads of missing keys yield the zero value). -/
theorem c8_counterexample :
    5 ∉ (buildUF ([1, 2] : List ℕ)).keys ∧
    (FindSet 0 (buildUF ([1, 2] : List ℕ)) 5).1 = 0 := by
  refine ⟨by decide, by decide⟩

end UnionFind

/-! ### Name normalization (source `normalize` in `extendparentstops.go`)

The Go function is a pipeline of `strings`/`regexp` operations over the name.
Strings are modelled as their character lists; each regex of the source is
embedded as the explicit replacement function it denotes.  The iteration over
the `replacements` map literal (`for k, v := range replacements`) has no
defined order in Go, so the fold over the table is parametrized by an order
list. -/

/-- Go regexp `\s`: ASCII whitespace `[\t\n\f\r ]`. -/
def isSpaceChar (c : Char) : Bool :=
  c = ' ' || c = '\t' || c = '\n' || c = '\r' || c = '\x0c'

/-- Go regexp `\w`: `[0-9A-Za-z_]`. -/
def isWordChar (c : Char) : Bool := c.isAlphanum || c = '_'

/-- Modelled from the spec: the external go-unidecode library ("Strip
diacritics to their closest ASCII base letters"); table of the common
diacritics, identity on ASCII input. -/
def deaccentChar (c : Char) : List Char :=
  if c = 'ä' then ['a'] else if c = 'ö' then ['o'] else if c = 'ü' then ['u']
  else if c = 'ß' then ['s', 's'] else if c = 'é' then ['e'] else if c = 'è' then ['e']
  else if c = 'à' then ['a'] else if c = 'â' then ['a'] else if c = 'ç' then ['c']
  else [c]

/-- Modelled from the spec: `unidecode.Unidecode`, character by character. -/
def unidecodeList (l : List Char) : List Char := (l.map deaccentChar).flatten

/-- ASCII lowercasing (`strings.ToLower` restricted to ASCII letters). -/
def toLowerChar (c : Char) : Char :=
  if 'A' ≤ c ∧ c ≤ 'Z' then Char.ofNat (c.toNat + 32) else c

/-- Split off everything before the first occurrence of `c` (source regexp
search helper). -/
def splitAtChar (c : Char) : List Char → Option (List Char × List Char)
  | [] => none
  | x :: xs =>
    if x = c then some ([], xs)
    else (splitAtChar c xs).map (fun p => (x :: p.1, p.2))

/-- Remove the trailing whitespace run (the greedy `\s*` before a matched
parenthesis group). -/
def dropTrailingSpaces (l : List Char) : List Char :=
  (l.reverse.dropWhile isSpaceChar).reverse

/-- Go `regexp.MustCompile("\\s*\\([^)]*\\)").ReplaceAllString(name, "")`:
repeatedly delete the leftmost whitespace-run + parenthesical group. -/
def removeParensAux : ℕ → List Char → List Char
  | 0, l => l
  | fuel + 1, l =>
    match splitAtChar '(' l with
    | none => l
    | some (pre, rest) =>
      match splitAtChar ')' rest with
      | none => l
      | some (_, post) => dropTrailingSpaces pre ++ removeParensAux fuel post

/-- Go `strings.ReplaceAll`: replace every non-overlapping occurrence of
`pat`, left to right, not rescanning the inserted replacement. -/
def matchesPrefix : List Char → List Char → Option (List Char)
  | [], rest => some rest
  | _ :: _, [] => none
  | t :: ts, c :: cs => if c = t then matchesPrefix ts cs else none

def replaceAllAux (pat rep : List Char) : ℕ → List Char → List Char
  | 0, l => l
  | _ + 1, [] => []
  | fuel + 1, c :: cs =>
    match matchesPrefix pat (c :: cs) with
    | some rest => rep ++ replaceAllAux pat rep fuel rest
    | none => c :: replaceAllAux pat rep fuel cs

/-- Go `regexp.MustCompile("[^\\w\\s]").ReplaceAllString(name, "")`. -/
def stripPunct (l : List Char) : List Char :=
  l.filter (fun c => isWordChar c || isSpaceChar c)

/-- Try the regexp alternatives in source order at the current position:
an alternative matches when it is a prefix and the following `\b` holds
(next char absent or not a word char); Go regexps use leftmost-first
alternation.  All alternatives used by the source start and end with word
chars, so the leading `\b` is exactly "previous char not a word char",
checked by the caller. -/
def firstTokenMatch : List (List Char) → List Char → Option (List Char)
  | [], _ => none
  | t :: ts, l =>
    match matchesPrefix t l with
    | some rest =>
      match rest with
      | [] => some rest
      | c :: _ => if isWordChar c then firstTokenMatch ts l else some rest
    | none => firstTokenMatch ts l

/-- Go `regexp.MustCompile("\\b(tok1|tok2|...)\\b[ \\.]?").ReplaceAllString(name, "")`
(`trail = true` includes the optional trailing space/dot of the last source
regexp; `trail = false` is the plain `\b(...)\b` form).  The scan keeps track
of whether the previous original character is a word character, which decides
the leading `\b`. -/
def replaceTokensAux (toks : List (List Char)) (trail : Bool) :
    ℕ → Bool → List Char → List Char
  | 0, _, l => l
  | _ + 1, _, [] => []
  | fuel + 1, prevW, c :: cs =>
    if prevW then c :: replaceTokensAux toks trail fuel (isWordChar c) cs
    else
      match firstTokenMatch toks (c :: cs) with
      | some rest =>
        if trail then
          match rest with
          | c2 :: cs2 =>
            if c2 = ' ' || c2 = '.' then replaceTokensAux toks trail fuel false cs2
            else replaceTokensAux toks trail fuel true (c2 :: cs2)
          | [] => []
        else replaceTokensAux toks trail fuel true rest
      | none => c :: replaceTokensAux toks trail fuel (isWordChar c) cs

/-- Go `strings.Join(strings.Fields(name), " ")`: split on whitespace runs
and re-join single-spaced. -/
def fieldsSplit (l : List Char) : List (List Char) :=
  (l.foldr (fun c acc =>
    if isSpaceChar c then [] :: acc
    else match acc with
      | [] => [[c]]
      | w :: ws => (c :: w) :: ws) []).filter (fun w => !w.isEmpty)

def fieldsJoin (l : List Char) : List Char := ([' '] : List Char).intercalate (fieldsSplit l)

/-- The long-form → abbreviation table of the source `normalize`, in the order
written in the map literal (the Go iteration order of this map is
unspecified). -/
def replacements : List (String × String) :=
  [(" hauptbahnhof", " hbf"), (" bahnhof", " bf"),
   ("hauptbahnhof ", "hbf "), ("bahnhof ", "bf "),
   ("strasse", "str"), ("platz", "pl"),
   (" station", " stn"), (" street", " st"), (" avenue", " ave"),
   (" boulevard", " blvd"), (" road", " rd"), (" drive", " dr"),
   (" court", " ct"), (" square", " sq"), (" parkway", " pkwy"),
   (" highway", " hwy"), (" circle", " cir"), (" lane", " ln"),
   (" place", " pl"), (" terrace", " ter"), (" expressway", " expy"),
   (" junction", " jct"), (" intersection", " int"), (" terminal", " term"),
   (" airport", " apt"), (" downtown", " dtwn"), (" ferry", " fry")]

/-- Platform/track/vehicle references removed as whole words. -/
def vehicleTokens : List String := ["bussteig", "gleis", "bahnsteig", "bus", "zug"]

/-- Transit agency/operator names removed as whole words. -/
def operatorTokens : List String := ["db", "mvv", "vrr", "rmv", "bvg", "sbb", "oebb", "sncf",
  "trenitalia"]

/-- Transport abbreviations removed with an optional trailing space/dot. -/
def transportTokens : List String := ["s+u", "s", "u", "rb", "re", "tram", "bus", "bhf"]

/-- `removeParensAux` with enough fuel (each round removes a matched pair). -/
def removeParens (l : List Char) : List Char := removeParensAux l.length l

/-- `strings.ReplaceAll` on character lists. -/
def replaceAllList (pat rep l : List Char) : List Char := replaceAllAux pat rep l.length l

/-- Whole-word token removal with enough fuel; the scan starts at a word
boundary (string start). -/
def replaceTokens (toks : List String) (trail : Bool) (l : List Char) : List Char :=
  replaceTokensAux (toks.map String.data) trail l.length false l

/-- The `for k, v := range replacements` loop for a given iteration order. -/
def applyReplacements (order : List (List Char × List Char)) (l : List Char) : List Char :=
  order.foldl (fun acc kv => replaceAllList kv.1 kv.2 acc) l

/-- Source `normalize`, parametrized by the iteration order of the
`replacements` map: unidecode, lowercase, drop parentheticals, hyphens to
spaces, strip punctuation, drop vehicle and operator tokens, collapse
whitespace, apply the abbreviation table, drop transport abbreviations,
collapse whitespace again. -/
def normalizeWithList (order : List (List Char × List Char)) (l : List Char) : List Char :=
  fieldsJoin
    (replaceTokens transportTokens true
      (applyReplacements order
        (fieldsJoin
          (replaceTokens operatorTokens false
            (replaceTokens vehicleTokens false
              (stripPunct
                (replaceAllList ['-'] [' ']
                  (removeParens ((unidecodeList l).map toLowerChar)))))))))

/-- Source `normalize` for a given iteration order of the replacement table. -/
def normalizeWith (order : List (String × String)) (name : String) : String :=
  String.mk (normalizeWithList (order.map (fun kv => (kv.1.data, kv.2.data))) name.data)

/-- Source `normalize` with the table in its written order. -/
def normalize (name : String) : String := normalizeWith replacements name

/-- A second iteration order of the same replacement table: the entry
`("bahnhof ", "bf ")` is visited first. -/
def replacementsAlt : List (String × String) :=
  [("bahnhof ", "bf "), (" hauptbahnhof", " hbf"), (" bahnhof", " bf"),
   ("hauptbahnhof ", "hbf "),
   ("strasse", "str"), ("platz", "pl"),
   (" station", " stn"), (" street", " st"), (" avenue", " ave"),
   (" boulevard", " blvd"), (" road", " rd"), (" drive", " dr"),
   (" court", " ct"), (" square", " sq"), (" parkway", " pkwy"),
   (" highway", " hwy"), (" circle", " cir"), (" lane", " ln"),
   (" place", " pl"), (" terrace", " ter"), (" expressway", " expy"),
   (" junction", " jct"), (" intersection", " int"), (" terminal", " term"),
   (" airport", " apt"), (" downtown", " dtwn"), (" ferry", " fry")]

/-- C6 counterexample: the replacement table contains overlapping keys
(`"hauptbahnhof "` and `"bahnhof "`), so two iteration orders of the same
table give different outputs for the name "Hauptbahnhof X": `"hbf x"` when
`"hauptbahnhof "` is replaced first, `"hauptbf x"` when `"bahnhof "` is
replaced first.  `normalize` is therefore not independent of the map
iteration order. -/
theorem c6_normalize_counterexample :
    replacementsAlt.Perm replacements ∧
    replacements.Perm replacements ∧
    normalizeWith replacementsAlt "Hauptbahnhof X" = "hauptbf x" ∧
    normalizeWith replacements "Hauptbahnhof X" = "hbf x" ∧
    normalizeWith replacementsAlt "Hauptbahnhof X" ≠
      normalizeWith replacements "Hauptbahnhof X" := by
  refine ⟨by decide, List.Perm.refl _, by decide, by decide, by decide⟩

/-- C6 amended: `normalize` is a pure function of the input name and the
iteration order of the replacement table (deterministic once an order is
fixed), but its output genuinely depends on that order: there exist two
iteration orders of the table under which the same name normalizes to
different strings. -/
theorem c6_normalize_order_dependent :
    ∃ o₁ o₂ : List (String × String), o₁.Perm replacements ∧ o₂.Perm replacements ∧
      ∃ name, normalizeWith o₁ name ≠ normalizeWith o₂ name :=
  ⟨replacementsAlt, replacements, by decide, List.Perm.refl _,
    "Hauptbahnhof X", by decide⟩

/-! ### The clustering pass (`ExtendParentStops.Run`)

The gtfs stop record is modelled with the fields the pass reads and writes;
the `Parent_station` pointer into the stop map is modelled by the referenced
stop's id.  `feed.Stops` (a Go map) is modelled as an association list: one
entry per key, iterated in list order (Go map iteration order is arbitrary;
theorems quantify over the list, and each loop of the source iterates a
snapshot, which is faithful because entries inserted mid-loop are parent
records that every loop skips).  The external fuzzy scorer `fuzzy.Ratio` is a
parameter of the pass.  `BuildKDTreeParallelLimited` (whose source file is
not part of src/) is modelled from the spec. -/

structure Stop where
  Id : String
  Name : String
  Lat : ℝ
  Lon : ℝ
  Location_type : ℤ
  Parent_station : Option String
  Timezone : String
deriving Inhabited

structure Feed where
  Stops : List (String × Stop)

/-- Go map read `feed.Stops[id]` (first entry with the key). -/
def lookupStop (feed : Feed) (id : String) : Option Stop :=
  (feed.Stops.find? (fun kv => kv.1 = id)).map Prod.snd

/-- Dereference of the pointer `feed.Stops[id]` (nil outside well-formed use;
the default value stands for the Go nil dereference, never reached in the
claims below). -/
def getStop (feed : Feed) (id : String) : Stop := (lookupStop feed id).getD default

/-- Mutation through the stop pointer: update the record stored at `id`. -/
def updateStop (feed : Feed) (id : String) (f : Stop → Stop) : Feed :=
  ⟨feed.Stops.map (fun kv => if kv.1 = id then (kv.1, f kv.2) else kv)⟩

/-- Go map insert of a fresh key `feed.Stops[id] = s`. -/
def insertStop (feed : Feed) (id : String) (s : Stop) : Feed :=
  ⟨feed.Stops ++ [(id, s)]⟩

/-- Source `createParentStopFrom`. -/
def createParentStopFrom (orig : Stop) (id : String) : Stop :=
  { Id := id, Name := orig.Name, Lat := orig.Lat, Lon := orig.Lon,
    Location_type := 1, Parent_station := none, Timezone := orig.Timezone }

/-- Source `var TOL_IS_SAME = 85`. -/
def TOL_IS_SAME : ℤ := 85

/-- Source `const radiusKm = 0.5`. -/
noncomputable def radiusKm : ℝ := 0.5

/-- Source `ConsiderSame`, parametrized by the external `fuzzy.Ratio` scorer:
`fuzzy.Ratio(normalize(left), normalize(right)) >= threshold`. -/
def ConsiderSame (Ratio : String → String → ℤ) (left right : String) (threshold : ℤ) : Bool :=
  decide (Ratio (normalize left) (normalize right) ≥ threshold)

/-- Modelled from the spec: `BuildKDTreeParallelLimited` is a parallel build
not contained in src/; the spec requires parallel builds to "produce a
structurally valid index (same median-selection rule) regardless of worker
count", i.e. the sequential `BuildKDTree` result. -/
noncomputable def BuildKDTreeParallelLimited (points : List (Point Stop)) (depth : ℕ) :
    Node Stop :=
  BuildKDTree points depth

/-- The points slice built in `Run`'s first loop. -/
def feedPoints (feed : Feed) : List (Point Stop) :=
  feed.Stops.map (fun kv => ⟨kv.2.Lat, kv.2.Lon, kv.2⟩)

/-- The `uf.InitKey(s.Id)` calls of `Run`'s first loop. -/
def ufInit (feed : Feed) : UnionFind String :=
  feed.Stops.foldl (fun uf kv => UnionFind.InitKey uf kv.2.Id) UnionFind.NewUnionFind

/-- The seeding loop: `if s.Parent_station != nil { uf.UnionSet(s.Id, s.Parent_station.Id) }`. -/
def seedPhase (stops : List (String × Stop)) (uf : UnionFind String) : UnionFind String :=
  stops.foldl (fun uf kv =>
    match kv.2.Parent_station with
    | some pid => UnionFind.UnionSet "" uf kv.2.Id pid
    | none => uf) uf

/-- Union-find state after `Run`'s registration and seeding loops; the source
reads `prev := uf.NumDisjointSets()` of this state. -/
def ufSeeded (feed : Feed) : UnionFind String := seedPhase feed.Stops (ufInit feed)

/-- The proposal loop: a range query around each stop and a `UnionSet` for each
neighbour whose (already normalized) name passes `ConsiderSame`. -/
noncomputable def proposePhase (Ratio : String → String → ℤ) (root : Node Stop)
    (stops : List (String × Stop)) (uf : UnionFind String) : UnionFind String :=
  stops.foldl (fun uf kv =>
    (SearchRange root ⟨kv.2.Lat, kv.2.Lon, kv.2⟩ radiusKm 0).foldl
      (fun uf p =>
        if ConsiderSame Ratio (normalize kv.2.Name) (normalize p.Data.Name) TOL_IS_SAME then
          UnionFind.UnionSet "" uf kv.2.Id p.Data.Id
        else uf) uf) uf

/-- Union-find state after the proposal loop. -/
noncomputable def ufProposed (Ratio : String → String → ℤ) (feed : Feed) : UnionFind String :=
  proposePhase Ratio (BuildKDTreeParallelLimited (feedPoints feed) 0) feed.Stops (ufSeeded feed)

/-- One step of the remap loop: an existing parent reference is redirected to
the `par::<id>` record, which is created (copied from the child, as in the
source) when missing. -/
def remapStep (fd : Feed) (kv : String × Stop) : Feed :=
  match kv.2.Parent_station with
  | none => fd
  | some pid =>
    if (lookupStop fd ("par::" ++ pid)).isSome then
      updateStop fd kv.1 (fun s => { s with Parent_station := some ("par::" ++ pid) })
    else
      updateStop (insertStop fd ("par::" ++ pid) (createParentStopFrom kv.2 ("par::" ++ pid)))
        kv.1 (fun s => { s with Parent_station := some ("par::" ++ pid) })

/-- The remap loop over the feed's stops. -/
def remapPhase (feed : Feed) : Feed := feed.Stops.foldl remapStep feed

/-- One step of `uf.Apply`'s callback in `Run`: find the key's root (with path
compression threading the union-find state), create the `par::<root>` record
from the root stop when missing, and point the key's stop at it. -/
def applyStep (acc : Feed × UnionFind String) (key : String) : Feed × UnionFind String :=
  ((if (lookupStop acc.1 ("par::" ++ (UnionFind.FindSet "" acc.2 key).1)).isSome then
      updateStop acc.1 key
        (fun s => { s with Parent_station := some ("par::" ++ (UnionFind.FindSet "" acc.2 key).1) })
    else
      updateStop
        (insertStop acc.1 ("par::" ++ (UnionFind.FindSet "" acc.2 key).1)
          (createParentStopFrom (getStop acc.1 (UnionFind.FindSet "" acc.2 key).1)
            ("par::" ++ (UnionFind.FindSet "" acc.2 key).1)))
        key
        (fun s => { s with Parent_station := some ("par::" ++ (UnionFind.FindSet "" acc.2 key).1) })),
   (UnionFind.FindSet "" acc.2 key).2)

/-- The ids registered in the union-find: the keys `uf.Apply` iterates. -/
def stopIds (feed : Feed) : List String := feed.Stops.map (fun kv => kv.2.Id)

/-- The `uf.Apply` loop of `Run`. -/
def applyPhase (keys : List String) (feed : Feed) (uf : UnionFind String) :
    Feed × UnionFind String :=
  keys.foldl applyStep (feed, uf)

/-- One step of the backfill loop: a location-type-0 stop still lacking a
parent receives a `par::<own id>` singleton parent. -/
def backfillStep (fd : Feed) (kv : String × Stop) : Feed :=
  if kv.2.Location_type = 0 ∧ kv.2.Parent_station = none then
    (if (lookupStop fd ("par::" ++ kv.2.Id)).isSome then
      updateStop fd kv.1 (fun s => { s with Parent_station := some ("par::" ++ kv.2.Id) })
    else
      updateStop (insertStop fd ("par::" ++ kv.2.Id) (createParentStopFrom kv.2 ("par::" ++ kv.2.Id)))
        kv.1 (fun s => { s with Parent_station := some ("par::" ++ kv.2.Id) }))
  else fd

/-- The backfill loop over the feed's stops. -/
def backfillPhase (feed : Feed) : Feed := feed.Stops.foldl backfillStep feed

/-- The externally observable outcome of one `Run`: the reported disjoint-set
counts (`prev` read after the seeding loop, `after` read at the end) and the
mutated feed. -/
structure RunResult where
  prev : ℤ
  after : ℤ
  feed : Feed

/-- Source `ExtendParentStops.Run`, parametrized by the external fuzzy scorer. -/
noncomputable def ExtendParentStopsRun (Ratio : String → String → ℤ) (feed : Feed) : RunResult :=
  { prev := (ufSeeded feed).numSets
    after := (applyPhase (stopIds feed) (remapPhase feed) (ufProposed Ratio feed)).2.numSets
    feed := backfillPhase (applyPhase (stopIds feed) (remapPhase feed) (ufProposed Ratio feed)).1 }

/-! ### Reported set counts (claim C7) -/

/-- A trivial instance of the external fuzzy scorer, under which `ConsiderSame`
never fires (`0 < 85`); the propose loop is then a no-op on the forest. -/
def RatioZero : String → String → ℤ := fun _ _ => 0

theorem considerSame_ratioZero (a b : String) :
    ConsiderSame RatioZero a b TOL_IS_SAME = false := rfl

theorem foldl_eq_of_step_id {β γ : Type} (f : β → γ → β) (h : ∀ b c, f b c = b) :
    ∀ (l : List γ) (b : β), l.foldl f b = b := by
  intro l
  induction l with
  | nil => intro b; rfl
  | cons c cs ih => intro b; rw [List.foldl_cons, h]; exact ih b

theorem proposePhase_ratioZero (root : Node Stop) (stops : List (String × Stop))
    (uf : UnionFind String) : proposePhase RatioZero root stops uf = uf := by
  unfold proposePhase
  apply foldl_eq_of_step_id
  intro uf' kv
  apply foldl_eq_of_step_id
  intro uf'' p
  simp [considerSame_ratioZero]

theorem ufProposed_ratioZero (feed : Feed) : ufProposed RatioZero feed = ufSeeded feed := by
  unfold ufProposed
  exact proposePhase_ratioZero _ _ _

theorem run_feed_def (Ratio : String → String → ℤ) (feed : Feed) :
    (ExtendParentStopsRun Ratio feed).feed =
      backfillPhase (applyPhase (stopIds feed) (remapPhase feed) (ufProposed Ratio feed)).1 := rfl

theorem applyPhase_numSets :
    ∀ (keys : List String) (fd : Feed) (uf : UnionFind String),
      (applyPhase keys fd uf).2.numSets = uf.numSets := by
  intro keys
  induction keys with
  | nil => intro fd uf; rfl
  | cons k rest ih =>
    intro fd uf
    show (applyPhase rest (applyStep (fd, uf) k).1 (applyStep (fd, uf) k).2).2.numSets =
      uf.numSets
    rw [ih]
    exact UnionFind.findAux_numSets "" _ uf k

/-- C7 amended: the reported pair is the disjoint-set count read after the
hierarchy-seeding unions of step 1 (not before them) and the count after all
unions settle; the later `FindSet` calls of the canonicalization loop leave
the count unchanged. -/
theorem c7_reported_counts (Ratio : String → String → ℤ) (feed : Feed) :
    (ExtendParentStopsRun Ratio feed).prev = (ufSeeded feed).numSets ∧
    (ExtendParentStopsRun Ratio feed).after = (ufProposed Ratio feed).numSets := by
  refine ⟨rfl, ?_⟩
  show (applyPhase (stopIds feed) (remapPhase feed) (ufProposed Ratio feed)).2.numSets = _
  exact applyPhase_numSets _ _ _

/-- Stops of the C7 counterexample: `b` references `a` as its parent station. -/
def stopA : Stop :=
  { Id := "a", Name := "x", Lat := 0, Lon := 0, Location_type := 0,
    Parent_station := none, Timezone := "" }

def stopB : Stop :=
  { Id := "b", Name := "y", Lat := 0, Lon := 0, Location_type := 0,
    Parent_station := some "a", Timezone := "" }

def feedC7 : Feed := ⟨[("a", stopA), ("b", stopB)]⟩

/-- C7 counterexample: with two stops where `b` already references parent `a`,
the count before any seeding union is 2, but the run reports `prev = 1`: the
source reads `prev := uf.NumDisjointSets()` only after the seeding loop's
`UnionSet(b, a)`. -/
theorem c7_counterexample :
    (ufInit feedC7).numSets = 2 ∧
    (ExtendParentStopsRun RatioZero feedC7).prev = 1 ∧
    (ExtendParentStopsRun RatioZero feedC7).prev ≠ (ufInit feedC7).numSets := by
  refine ⟨by decide, by decide, by decide⟩

/-! ### Stop-record presence and parent coverage (claims C4, C5) -/

/-- The feed map has an entry under key `k`. -/
def hasKey (fd : Feed) (k : String) : Prop := ∃ v, (k, v) ∈ fd.Stops

/-- Every entry stored under key `k` carries a non-null parent reference. -/
def parentSetAt (fd : Feed) (k : String) : Prop :=
  ∀ kv ∈ fd.Stops, kv.1 = k → kv.2.Parent_station.isSome = true

/-- Key `k` is present and its record has a parent. -/
def keyParented (fd : Feed) (k : String) : Prop := hasKey fd k ∧ parentSetAt fd k

theorem find?_key_isSome :
    ∀ (l : List (String × Stop)) (k : String) (v : Stop), (k, v) ∈ l →
      (l.find? (fun kv => kv.1 = k)).isSome = true := by
  intro l
  induction l with
  | nil => intro k v hv; cases hv
  | cons x xs ih =>
    intro k v hv
    by_cases hx : x.1 = k
    · rw [List.find?_cons_of_pos _ (by simp [hx])]
      rfl
    · rw [List.find?_cons_of_neg _ (by simp [hx])]
      rcases List.mem_cons.1 hv with h1 | h1
      · exact absurd (by rw [← h1]) hx
      · exact ih k v h1

theorem hasKey_lookup {fd : Feed} {k : String} (h : hasKey fd k) :
    (lookupStop fd k).isSome = true := by
  obtain ⟨v, hv⟩ := h
  unfold lookupStop
  rw [Option.isSome_map']
  exact find?_key_isSome _ _ _ hv

theorem hasKey_updateStop (fd : Feed) (id : String) (f : Stop → Stop) (k : String)
    (h : hasKey fd k) : hasKey (updateStop fd id f) k := by
  obtain ⟨v, hv⟩ := h
  by_cases hk : k = id
  · exact ⟨f v, List.mem_map.2 ⟨(k, v), hv, by simp [hk]⟩⟩
  · exact ⟨v, List.mem_map.2 ⟨(k, v), hv, by simp [hk]⟩⟩

theorem hasKey_insertStop (fd : Feed) (id : String) (s : Stop) (k : String)
    (h : hasKey fd k) : hasKey (insertStop fd id s) k := by
  obtain ⟨v, hv⟩ := h
  exact ⟨v, List.mem_append_left _ hv⟩

theorem parentSetAt_updateStop_self (fd : Feed) (k pid : String) :
    parentSetAt (updateStop fd k (fun s => { s with Parent_station := some pid })) k := by
  intro kv hkv hk1
  obtain ⟨orig, ho, heq⟩ := List.mem_map.1 hkv
  by_cases hx : orig.1 = k
  · rw [if_pos hx] at heq
    rw [← heq]
    rfl
  · rw [if_neg hx] at heq
    exact absurd (by rw [heq]; exact hk1) hx

theorem parentSetAt_updateStop (fd : Feed) (id pid k : String) (h : parentSetAt fd k) :
    parentSetAt (updateStop fd id (fun s => { s with Parent_station := some pid })) k := by
  intro kv hkv hk1
  obtain ⟨orig, ho, heq⟩ := List.mem_map.1 hkv
  by_cases hx : orig.1 = id
  · rw [if_pos hx] at heq
    rw [← heq]
    rfl
  · rw [if_neg hx] at heq
    rw [← heq]
    exact h orig ho (by rw [heq]; exact hk1)

theorem parentSetAt_insertStop (fd : Feed) (id : String) (s : Stop) (k : String)
    (hne : id ≠ k) (h : parentSetAt fd k) :
    parentSetAt (insertStop fd id s) k := by
  intro kv hkv hk1
  rcases List.mem_append.1 hkv with h1 | h1
  · exact h kv h1 hk1
  · rw [List.mem_singleton] at h1
    rw [h1] at hk1
    exact absurd hk1 hne

theorem hasKey_remapStep (fd : Feed) (kv : String × Stop) (k : String)
    (h : hasKey fd k) : hasKey (remapStep fd kv) k := by
  unfold remapStep
  cases kv.2.Parent_station with
  | none => exact h
  | some pid =>
    dsimp only
    split_ifs with hex
    · exact hasKey_updateStop _ _ _ _ h
    · exact hasKey_updateStop _ _ _ _ (hasKey_insertStop _ _ _ _ h)

theorem hasKey_applyStep (acc : Feed × UnionFind String) (key k : String)
    (h : hasKey acc.1 k) : hasKey (applyStep acc key).1 k := by
  unfold applyStep
  dsimp only
  split_ifs with hex
  · exact hasKey_updateStop _ _ _ _ h
  · exact hasKey_updateStop _ _ _ _ (hasKey_insertStop _ _ _ _ h)

theorem hasKey_backfillStep (fd : Feed) (kv : String × Stop) (k : String)
    (h : hasKey fd k) : hasKey (backfillStep fd kv) k := by
  unfold backfillStep
  split_ifs with hg hex
  · exact hasKey_updateStop _ _ _ _ h
  · exact hasKey_updateStop _ _ _ _ (hasKey_insertStop _ _ _ _ h)
  · exact h

theorem keyParented_applyStep (acc : Feed × UnionFind String) (key k : String)
    (h : keyParented acc.1 k) : keyParented (applyStep acc key).1 k := by
  obtain ⟨hk, hp⟩ := h
  unfold applyStep keyParented
  dsimp only
  split_ifs with hex
  · exact ⟨hasKey_updateStop _ _ _ _ hk, parentSetAt_updateStop _ _ _ _ hp⟩
  · refine ⟨hasKey_updateStop _ _ _ _ (hasKey_insertStop _ _ _ _ hk),
      parentSetAt_updateStop _ _ _ _ (parentSetAt_insertStop _ _ _ _ ?_ hp)⟩
    intro heq
    rw [heq] at hex
    exact hex (hasKey_lookup hk)

theorem keyParented_applyStep_self (acc : Feed × UnionFind String) (key : String)
    (h : hasKey acc.1 key) : keyParented (applyStep acc key).1 key := by
  unfold applyStep keyParented
  dsimp only
  split_ifs with hex
  · exact ⟨hasKey_updateStop _ _ _ _ h, parentSetAt_updateStop_self _ _ _⟩
  · exact ⟨hasKey_updateStop _ _ _ _ (hasKey_insertStop _ _ _ _ h),
      parentSetAt_updateStop_self _ _ _⟩

theorem keyParented_backfillStep (fd : Feed) (kv : String × Stop) (k : String)
    (h : keyParented fd k) : keyParented (backfillStep fd kv) k := by
  obtain ⟨hk, hp⟩ := h
  unfold backfillStep keyParented
  split_ifs with hg hex
  · exact ⟨hasKey_updateStop _ _ _ _ hk, parentSetAt_updateStop _ _ _ _ hp⟩
  · refine ⟨hasKey_updateStop _ _ _ _ (hasKey_insertStop _ _ _ _ hk),
      parentSetAt_updateStop _ _ _ _ (parentSetAt_insertStop _ _ _ _ ?_ hp)⟩
    intro heq
    rw [heq] at hex
    exact hex (hasKey_lookup hk)
  · exact ⟨hk, hp⟩

theorem hasKey_remapFold : ∀ (l : List (String × Stop)) (fd : Feed) (k : String),
    hasKey fd k → hasKey (l.foldl remapStep fd) k := by
  intro l
  induction l with
  | nil => intro fd k h; exact h
  | cons x xs ih => intro fd k h; exact ih _ _ (hasKey_remapStep _ _ _ h)

theorem hasKey_remapPhase (feed : Feed) (k : String) (h : hasKey feed k) :
    hasKey (remapPhase feed) k := hasKey_remapFold _ _ _ h

theorem hasKey_applyPhase :
    ∀ (keys : List String) (fd : Feed) (uf : UnionFind String) (k : String),
      hasKey fd k → hasKey (applyPhase keys fd uf).1 k := by
  intro keys
  induction keys with
  | nil => intro fd uf k h; exact h
  | cons key rest ih =>
    intro fd uf k h
    show hasKey (applyPhase rest (applyStep (fd, uf) key).1 (applyStep (fd, uf) key).2).1 k
    exact ih _ _ _ (hasKey_applyStep _ _ _ h)

theorem keyParented_applyPhase_mono :
    ∀ (keys : List String) (fd : Feed) (uf : UnionFind String) (k : String),
      keyParented fd k → keyParented (applyPhase keys fd uf).1 k := by
  intro keys
  induction keys with
  | nil => intro fd uf k h; exact h
  | cons key rest ih =>
    intro fd uf k h
    show keyParented
      (applyPhase rest (applyStep (fd, uf) key).1 (applyStep (fd, uf) key).2).1 k
    exact ih _ _ _ (keyParented_applyStep _ _ _ h)

theorem keyParented_applyPhase :
    ∀ (keys : List String) (fd : Feed) (uf : UnionFind String) (k : String),
      hasKey fd k → k ∈ keys → keyParented (applyPhase keys fd uf).1 k := by
  intro keys
  induction keys with
  | nil => intro fd uf k _ hmem; exact absurd hmem (List.not_mem_nil k)
  | cons key rest ih =>
    intro fd uf k h hmem
    show keyParented
      (applyPhase rest (applyStep (fd, uf) key).1 (applyStep (fd, uf) key).2).1 k
    rcases List.mem_cons.1 hmem with heq | hmem'
    · subst heq
      exact keyParented_applyPhase_mono _ _ _ _ (keyParented_applyStep_self (fd, uf) k h)
    · exact ih _ _ _ (hasKey_applyStep _ _ _ h) hmem'

theorem hasKey_backfillFold : ∀ (l : List (String × Stop)) (fd : Feed) (k : String),
    hasKey fd k → hasKey (l.foldl backfillStep fd) k := by
  intro l
  induction l with
  | nil => intro fd k h; exact h
  | cons x xs ih => intro fd k h; exact ih _ _ (hasKey_backfillStep _ _ _ h)

theorem keyParented_backfillFold :
    ∀ (l : List (String × Stop)) (fd : Feed) (k : String),
      keyParented fd k → keyParented (l.foldl backfillStep fd) k := by
  intro l
  induction l with
  | nil => intro fd k h; exact h
  | cons x xs ih => intro fd k h; exact ih _ _ (keyParented_backfillStep _ _ _ h)

/-- A one-stop feed, used to instantiate the run theorems concretely. -/
def feedOne : Feed := ⟨[("a", stopA)]⟩

/-- C5: after one full `Run` pass (assuming the standard GTFS invariant that
each stop is stored under its own id, which the union-find keying relies on),
every stop present at the start of the pass ends with a non-null
`Parent_station` reference. -/
theorem c5_total_parent_coverage (Ratio : String → String → ℤ) (feed : Feed)
    (hids : ∀ kv ∈ feed.Stops, kv.2.Id = kv.1) :
    ∀ kv ∈ feed.Stops, ∃ s' : Stop,
      (kv.1, s') ∈ (ExtendParentStopsRun Ratio feed).feed.Stops ∧
      s'.Parent_station.isSome = true := by
  intro kv hkv
  have hk0 : hasKey feed kv.1 := ⟨kv.2, hkv⟩
  have hmem : kv.1 ∈ stopIds feed := List.mem_map.2 ⟨kv, hkv, hids kv hkv⟩
  have h2 : keyParented
      (applyPhase (stopIds feed) (remapPhase feed) (ufProposed Ratio feed)).1 kv.1 :=
    keyParented_applyPhase _ _ _ _ (hasKey_remapPhase _ _ hk0) hmem
  have h3 : keyParented (ExtendParentStopsRun Ratio feed).feed kv.1 := by
    rw [run_feed_def]
    exact keyParented_backfillFold _ _ _ h2
  obtain ⟨⟨v, hv⟩, hps⟩ := h3
  exact ⟨v, hv, hps (kv.1, v) hv rfl⟩

theorem c5_total_parent_coverage_witness :
    ∃ s' : Stop, ("a", s') ∈ (ExtendParentStopsRun RatioZero feedOne).feed.Stops ∧
      s'.Parent_station.isSome = true :=
  c5_total_parent_coverage RatioZero feedOne (by decide) ("a", stopA)
    (List.mem_cons_self _ _)

/-- C4 counterexample: on a one-stop feed, the first run leaves stop keys
`[a, par::a]`; the second run, rather than leaving the stop set unchanged,
creates the additional synthetic record `par::par::a`, because the remap loop
re-derives `"par::" + parent.Id` from the already-synthetic parent. -/
theorem c4_counterexample :
    (ExtendParentStopsRun RatioZero feedOne).feed.Stops.map Prod.fst = ["a", "par::a"] ∧
    (ExtendParentStopsRun RatioZero
        (ExtendParentStopsRun RatioZero feedOne).feed).feed.Stops.map Prod.fst =
      ["a", "par::a", "par::par::a"] ∧
    (ExtendParentStopsRun RatioZero
        (ExtendParentStopsRun RatioZero feedOne).feed).feed.Stops.map Prod.fst ≠
      (ExtendParentStopsRun RatioZero feedOne).feed.Stops.map Prod.fst := by
  simp only [run_feed_def, ufProposed_ratioZero]
  refine ⟨by decide, by decide, by decide⟩

/-- C4 amended: a second run is not a no-op on the stop set — it can add
`par::par::<id>` records — but no run ever removes a stop record: every key
present at the start of a run is still present, with some record, at its end. -/
theorem c4_run_preserves_stops (Ratio : String → String → ℤ) (feed : Feed) :
    ∀ kv ∈ feed.Stops, ∃ s' : Stop,
      (kv.1, s') ∈ (ExtendParentStopsRun Ratio feed).feed.Stops := by
  intro kv hkv
  have hk0 : hasKey feed kv.1 := ⟨kv.2, hkv⟩
  have h2 : hasKey (ExtendParentStopsRun Ratio feed).feed kv.1 := by
    rw [run_feed_def]
    exact hasKey_backfillFold _ _ _
      (hasKey_applyPhase _ _ _ _ (hasKey_remapPhase _ _ hk0))
  exact h2

theorem c4_run_preserves_stops_witness :
    ∃ s' : Stop, ("a", s') ∈ (ExtendParentStopsRun RatioZero feedOne).feed.Stops :=
  c4_run_preserves_stops RatioZero feedOne ("a", stopA) (List.mem_cons_self _ _)

end Processors
